import Mathlib

/-!
Verification development for the winston_logger_rs structured-logging
framework.  The Rust sources are shallowly embedded: pure functions become
Lean functions, stateful sinks become explicit state-passing functions,
machine integers become `Nat`/`Int`, fallible operations return
`Option`/`Except`.  External crates (chrono formatting, the `dateparser`
and `serde_json` parsers, regexes) are modelled as function parameters or
as small faithful models; each such spot is marked in the doc comment of
the corresponding definition.
-/

namespace WinstonSpec

/-- Model of `serde_json::Value`.  Numbers are modelled by `Int`: the sinks
and formats under verification never compute with the numeric payload, they
only carry it through, so the integer subset of `serde_json::Number` is a
faithful stand-in. -/
inductive Json where
  | null : Json
  | bool (b : Bool) : Json
  | num (n : Int) : Json
  | str (s : String) : Json
  | arr (xs : List Json) : Json
  | obj (fields : List (String × Json)) : Json
deriving Repr

mutual

/-- Decidable equality for the nested inductive `Json` (the automatic
deriving handler does not support nesting). -/
def Json.decEq : (a b : Json) → Decidable (a = b)
  | .null, .null => isTrue rfl
  | .bool a, .bool b =>
    if h : a = b then isTrue (by rw [h]) else isFalse (fun hh => h (Json.bool.inj hh))
  | .num a, .num b =>
    if h : a = b then isTrue (by rw [h]) else isFalse (fun hh => h (Json.num.inj hh))
  | .str a, .str b =>
    if h : a = b then isTrue (by rw [h]) else isFalse (fun hh => h (Json.str.inj hh))
  | .arr xs, .arr ys =>
    match Json.decEqList xs ys with
    | isTrue h => isTrue (by rw [h])
    | isFalse h => isFalse (fun hh => h (Json.arr.inj hh))
  | .obj fs, .obj gs =>
    match Json.decEqFields fs gs with
    | isTrue h => isTrue (by rw [h])
    | isFalse h => isFalse (fun hh => h (Json.obj.inj hh))
  | .null, .bool _ => isFalse (fun h => Json.noConfusion h)
  | .null, .num _ => isFalse (fun h => Json.noConfusion h)
  | .null, .str _ => isFalse (fun h => Json.noConfusion h)
  | .null, .arr _ => isFalse (fun h => Json.noConfusion h)
  | .null, .obj _ => isFalse (fun h => Json.noConfusion h)
  | .bool _, .null => isFalse (fun h => Json.noConfusion h)
  | .bool _, .num _ => isFalse (fun h => Json.noConfusion h)
  | .bool _, .str _ => isFalse (fun h => Json.noConfusion h)
  | .bool _, .arr _ => isFalse (fun h => Json.noConfusion h)
  | .bool _, .obj _ => isFalse (fun h => Json.noConfusion h)
  | .num _, .null => isFalse (fun h => Json.noConfusion h)
  | .num _, .bool _ => isFalse (fun h => Json.noConfusion h)
  | .num _, .str _ => isFalse (fun h => Json.noConfusion h)
  | .num _, .arr _ => isFalse (fun h => Json.noConfusion h)
  | .num _, .obj _ => isFalse (fun h => Json.noConfusion h)
  | .str _, .null => isFalse (fun h => Json.noConfusion h)
  | .str _, .bool _ => isFalse (fun h => Json.noConfusion h)
  | .str _, .num _ => isFalse (fun h => Json.noConfusion h)
  | .str _, .arr _ => isFalse (fun h => Json.noConfusion h)
  | .str _, .obj _ => isFalse (fun h => Json.noConfusion h)
  | .arr _, .null => isFalse (fun h => Json.noConfusion h)
  | .arr _, .bool _ => isFalse (fun h => Json.noConfusion h)
  | .arr _, .num _ => isFalse (fun h => Json.noConfusion h)
  | .arr _, .str _ => isFalse (fun h => Json.noConfusion h)
  | .arr _, .obj _ => isFalse (fun h => Json.noConfusion h)
  | .obj _, .null => isFalse (fun h => Json.noConfusion h)
  | .obj _, .bool _ => isFalse (fun h => Json.noConfusion h)
  | .obj _, .num _ => isFalse (fun h => Json.noConfusion h)
  | .obj _, .str _ => isFalse (fun h => Json.noConfusion h)
  | .obj _, .arr _ => isFalse (fun h => Json.noConfusion h)

def Json.decEqList : (xs ys : List Json) → Decidable (xs = ys)
  | [], [] => isTrue rfl
  | [], _ :: _ => isFalse (fun h => List.noConfusion h)
  | _ :: _, [] => isFalse (fun h => List.noConfusion h)
  | x :: xs, y :: ys =>
    match Json.decEq x y with
    | isFalse h => isFalse (fun hh => h (List.cons.inj hh).1)
    | isTrue h1 =>
      match Json.decEqList xs ys with
      | isTrue h2 => isTrue (by rw [h1, h2])
      | isFalse h2 => isFalse (fun hh => h2 (List.cons.inj hh).2)

def Json.decEqFields : (fs gs : List (String × Json)) → Decidable (fs = gs)
  | [], [] => isTrue rfl
  | [], _ :: _ => isFalse (fun h => List.noConfusion h)
  | _ :: _, [] => isFalse (fun h => List.noConfusion h)
  | (k, v) :: fs, (k', v') :: gs =>
    if hk : k = k' then
      match Json.decEq v v' with
      | isFalse h => isFalse (fun hh => h (congrArg Prod.snd (List.cons.inj hh).1))
      | isTrue h1 =>
        match Json.decEqFields fs gs with
        | isTrue h2 => isTrue (by rw [hk, h1, h2])
        | isFalse h2 => isFalse (fun hh => h2 (List.cons.inj hh).2)
    else isFalse (fun hh => hk (congrArg Prod.fst (List.cons.inj hh).1))

end

instance : DecidableEq Json := Json.decEq

/-- First-match association-list lookup; models `HashMap::get` (keys of a
`HashMap` are unique, so first match is the match). -/
def aLookup {α : Type} : List (String × α) → String → Option α
  | [], _ => none
  | (k, v) :: rest, key => if key = k then some v else aLookup rest key

/-- Keys of an association list. -/
def aKeys {α : Type} (l : List (String × α)) : List String := l.map (·.1)

/-- Model of `logform::LogInfo`: level, message, and a free-form meta map.
The Rust `HashMap<String, Value>` is modelled as an association list whose
keys are unique; iteration order of the `HashMap` is arbitrary, which is
harmless wherever the code folds the entries into an ordered map. -/
structure LogInfo where
  level : String
  message : String
  meta : List (String × Json)
deriving Repr, DecidableEq

/-- `LogInfo::new(level, message)`: empty meta. -/
def LogInfo.new (level message : String) : LogInfo :=
  { level := level, message := message, meta := [] }

/-- Model of the `logform::Format` trait: a single transformation stage,
`Some` to continue, `None` to drop the record. -/
structure Format (α : Type) where
  transform : α → Option α

/-- `Format::chain` from `logform/src/formats/format.rs`:
`ChainedFormat { first, next }` whose transform is
`first.transform(input).and_then(|res| next.transform(res))`. -/
def Format.chain {α : Type} (first next : Format α) : Format α :=
  { transform := fun input => (first.transform input).bind next.transform }

/-! ### Sorted-map model for `serde_json::Map` (a `BTreeMap<String, Value>`) -/

/-- Insertion into a key-sorted association list, overwriting an existing
key; models `serde_json::Map::insert` (a `BTreeMap` keyed by `String`,
whose byte-wise order agrees with the codepoint order of `String.lt`). -/
def mapInsert (k : String) (v : Json) : List (String × Json) → List (String × Json)
  | [] => [(k, v)]
  | (k', v') :: rest =>
    if k < k' then (k, v) :: (k', v') :: rest
    else if k = k' then (k, v) :: rest
    else (k', v') :: mapInsert k v rest

/-- Fold a list of entries into a sorted map, inserting left to right. -/
def foldInsert (entries : List (String × Json)) (init : List (String × Json)) :
    List (String × Json) :=
  entries.foldl (fun acc kv => mapInsert kv.1 kv.2 acc) init

/-! ### Compact JSON rendering (model of `serde_json`'s `to_string`) -/

/-- Lower-case hex digit, for `\u00XX` escapes. -/
def hexDigit (n : Nat) : Char :=
  if n < 10 then Char.ofNat (48 + n) else Char.ofNat (87 + n)

/-- Decimal digits of a natural number, most significant first. -/
def natDigits (n : Nat) : List Char :=
  if h : n < 10 then [Char.ofNat (48 + n)]
  else natDigits (n / 10) ++ [Char.ofNat (48 + n % 10)]
decreasing_by exact Nat.div_lt_self (Nat.lt_of_lt_of_le (by decide) (Nat.le_of_not_lt h)) (by decide)

/-- Decimal rendering of an integer. -/
def intChars (i : Int) : List Char :=
  if i < 0 then '-' :: natDigits i.natAbs else natDigits i.natAbs

/-- Per-character JSON string escaping as performed by `serde_json`:
quote and backslash get a backslash escape, control characters get their
short escape or a `\u00XX` escape, everything else is emitted verbatim. -/
def escapeChar (c : Char) : List Char :=
  if c = '"' then ['\\', '"']
  else if c = '\\' then ['\\', '\\']
  else if c = Char.ofNat 8 then ['\\', 'b']
  else if c = Char.ofNat 9 then ['\\', 't']
  else if c = Char.ofNat 10 then ['\\', 'n']
  else if c = Char.ofNat 12 then ['\\', 'f']
  else if c = Char.ofNat 13 then ['\\', 'r']
  else if c.toNat < 32 then
    ['\\', 'u', '0', '0', hexDigit (c.toNat / 16), hexDigit (c.toNat % 16)]
  else [c]

/-- JSON string literal: quote, escaped characters, quote. -/
def strChars (s : String) : List Char :=
  '"' :: (s.data.foldr (fun c acc => escapeChar c ++ acc) ['"'])

/-- Interpose a separator character between rendered pieces. -/
def joinWith (sep : Char) : List (List Char) → List Char
  | [] => []
  | [x] => x
  | x :: xs => x ++ sep :: joinWith sep xs

/-- Compact (single-line) JSON rendering, the model of
`serde_json::Value::to_string()`: no whitespace, entries joined by commas. -/
def renderJson : Json → List Char
  | .null => ("null" : String).data
  | .bool true => ("true" : String).data
  | .bool false => ("false" : String).data
  | .num n => intChars n
  | .str s => strChars s
  | .arr xs => '[' :: (joinWith ',' (xs.attach.map (fun x => renderJson x.1)) ++ [']'])
  | .obj fields =>
    '\x7b' :: (joinWith ','
      (fields.attach.map (fun kv => strChars kv.1.1 ++ ':' :: renderJson kv.1.2)) ++ ['\x7d'])
decreasing_by
  · simp_wf
    have := List.sizeOf_lt_of_mem x.2
    omega
  · simp_wf
    have := List.sizeOf_lt_of_mem kv.2
    cases h : kv.1 with
    | mk k v =>
      rw [h] at this
      simp at this ⊢
      omega

/-- `JsonFormat::transform` from `logform/src/formats/json.rs`: build a
`serde_json::Map`, insert `level` and `message`, then all meta entries;
serialize it into `message` and clear `meta`. -/
def JsonFormat.transform (info : LogInfo) : Option LogInfo :=
  let logObject := foldInsert info.meta
    (mapInsert "message" (.str info.message) (mapInsert "level" (.str info.level) []))
  let jsonMessage := String.mk (renderJson (.obj logObject))
  some { level := info.level, message := jsonMessage, meta := [] }

/-! ### Colorize / Uncolorize (`logform/src/formats/colorize.rs`, `uncolorize.rs`) -/

/-- The ASCII escape character `\x1b`. -/
def escChar : Char := Char.ofNat 27

/-- Model of the `colored` crate's `ColoredString` (an external dependency
of `Colorizer::transform`): the original text plus the accumulated SGR
codes (foreground, background, styles). -/
structure ColoredString where
  input : List Char
  fgcolor : Option Nat
  bgcolor : Option Nat
  styles : List Nat

/-- `str.normal()`: no formatting at all. -/
def ColoredString.normal (text : List Char) : ColoredString :=
  { input := text, fgcolor := none, bgcolor := none, styles := [] }

def ColoredString.withFg (cs : ColoredString) (code : Nat) : ColoredString :=
  { cs with fgcolor := some code }

def ColoredString.withBg (cs : ColoredString) (code : Nat) : ColoredString :=
  { cs with bgcolor := some code }

def ColoredString.withStyle (cs : ColoredString) (code : Nat) : ColoredString :=
  { cs with styles := cs.styles ++ [code] }

/-- `apply_color` from `colorize.rs`: map a color name to the `colored`
setter it calls (with that setter's SGR code); unknown names leave the
string unchanged. -/
def applyColor (message : ColoredString) (color : String) : ColoredString :=
  match color with
  | "black" => message.withFg 30
  | "red" => message.withFg 31
  | "green" => message.withFg 32
  | "yellow" => message.withFg 33
  | "blue" => message.withFg 34
  | "magenta" => message.withFg 35
  | "cyan" => message.withFg 36
  | "white" => message.withFg 37
  | "bright_black" => message.withFg 90
  | "bright_red" => message.withFg 91
  | "bright_green" => message.withFg 92
  | "bright_yellow" => message.withFg 93
  | "bright_blue" => message.withFg 94
  | "bright_magenta" => message.withFg 95
  | "bright_cyan" => message.withFg 96
  | "bright_white" => message.withFg 97
  | "on_black" => message.withBg 40
  | "on_red" => message.withBg 41
  | "on_green" => message.withBg 42
  | "on_yellow" => message.withBg 43
  | "on_blue" => message.withBg 44
  | "on_magenta" => message.withBg 45
  | "on_cyan" => message.withBg 46
  | "on_white" => message.withBg 47
  | "on_bright_black" => message.withBg 100
  | "on_bright_red" => message.withBg 101
  | "on_bright_green" => message.withBg 102
  | "on_bright_yellow" => message.withBg 103
  | "on_bright_blue" => message.withBg 104
  | "on_bright_magenta" => message.withBg 105
  | "on_bright_cyan" => message.withBg 106
  | "on_bright_white" => message.withBg 107
  | "bold" => message.withStyle 1
  | "underline" => message.withStyle 4
  | "italic" => message.withStyle 3
  | "dimmed" => message.withStyle 2
  | "reversed" => message.withStyle 7
  | "blink" => message.withStyle 5
  | "hidden" => message.withStyle 8
  | "strikethrough" => message.withStyle 9
  | _ => message

/-- The SGR codes of a `ColoredString` in rendering order. -/
def styleCodes (cs : ColoredString) : List Nat :=
  cs.styles
    ++ (match cs.fgcolor with | some c => [c] | none => [])
    ++ (match cs.bgcolor with | some c => [c] | none => [])

/-- An SGR introducer sequence: ESC `[` codes-joined-by-`;` `m`. -/
def sgrSeq (codes : List Nat) : List Char :=
  escChar :: '[' :: (joinWith ';' (codes.map natDigits) ++ ['m'])

/-- The SGR reset sequence ESC `[0m`. -/
def resetSeq : List Char := [escChar, '[', '0', 'm']

/-- The `colored` crate's `escape_inner_reset_sequences`: every reset
sequence inside the text gets the current style re-applied after it. -/
def reapplyAfterResets (style : List Char) : List Char → List Char
  | [] => []
  | c :: rest =>
    if c = escChar then
      match rest with
      | '[' :: '0' :: 'm' :: rest2 =>
        (resetSeq ++ style) ++ reapplyAfterResets style rest2
      | other => c :: reapplyAfterResets style other
    else c :: reapplyAfterResets style rest

/-- Model of `Display for ColoredString` (with the color override forced
on, as `Colorizer::init_colors` does): no formatting renders the bare
text, otherwise the style introducer, the (inner-reset-escaped) text, and
the reset. -/
def renderColored (cs : ColoredString) : List Char :=
  if cs.fgcolor = none ∧ cs.bgcolor = none ∧ cs.styles = [] then cs.input
  else sgrSeq (styleCodes cs) ++ reapplyAfterResets (sgrSeq (styleCodes cs)) cs.input ++ resetSeq

/-- Model of `logform::Colorizer`.  `MixedColorType` (a single color name
or a list of names) is modelled by its `as_vec()` image, which is all
`Colorizer::colorize` ever reads. -/
structure Colorizer where
  allColors : List (String × List String)
  all : Bool
  level : Bool
  message : Bool

/-- `Colorizer::colorize`: look the level up in the color table and fold
`apply_color` over the configured names, starting from `message.normal()`;
a level with no entry leaves the text unchanged. -/
def Colorizer.colorizeText (c : Colorizer) (level : String) (text : String) : String :=
  match aLookup c.allColors level with
  | some colors =>
    String.mk (renderColored (colors.foldl applyColor (ColoredString.normal text.data)))
  | none => text

/-- `Colorizer::transform`: colorize the level and/or the message per the
`all`/`level`/`message` scope flags, always looking the style up under the
original (uncolored) level. -/
def Colorizer.transform (c : Colorizer) (info : LogInfo) : Option LogInfo :=
  let originalLevel := info.level
  let info1 :=
    if c.all || c.level then { info with level := c.colorizeText originalLevel info.level }
    else info
  let info2 :=
    if c.all || c.message then
      { info1 with message := c.colorizeText originalLevel info1.message }
    else info1
  some info2

/-- A character the SGR body class `[0-9;]` accepts. -/
def isSgrBody (c : Char) : Bool := c.isDigit || c = ';'

/-- `strip_colors` from `uncolorize.rs`: remove every substring matching
the regex `\x1b\[[0-9;]*m` (leftmost, non-overlapping; the body class
excludes `m`, so the greedy scan below is exactly the regex's match). -/
def stripColors : List Char → List Char
  | [] => []
  | c :: rest =>
    if c = escChar then
      match rest with
      | '[' :: rest2 =>
        match h : rest2.dropWhile isSgrBody with
        | 'm' :: rest3 => stripColors rest3
        | _ => c :: stripColors ('[' :: rest2)
      | other => c :: stripColors other
    else c :: stripColors rest
termination_by l => l.length
decreasing_by
  · have hle : (rest2.dropWhile isSgrBody).length ≤ rest2.length :=
      (List.dropWhile_suffix isSgrBody).length_le
    rw [h] at hle
    simp at hle ⊢
    omega
  · simp
  · simp
  · simp

/-- Model of `logform::Uncolorize`. -/
structure Uncolorize where
  level : Bool
  message : Bool

/-- `Uncolorize::transform`: strip ANSI SGR sequences from the level
and/or the message per the scope flags. -/
def Uncolorize.transform (u : Uncolorize) (info : LogInfo) : Option LogInfo :=
  let info1 :=
    if u.level then { info with level := String.mk (stripColors info.level.data) } else info
  let info2 :=
    if u.message then { info1 with message := String.mk (stripColors info1.message.data) }
    else info1
  some info2

/-! ### LogQuery (`winston_transport/src/log_query.rs`) -/

/-- `Order` for query results. -/
inductive Order where
  | ascending
  | descending
deriving Repr, DecidableEq

/-- Model of `winston_transport::LogQuery`.  Instants are milliseconds
since the Unix epoch (`chrono::DateTime<Utc>`).  The compiled regex
`search_term` is modelled by the predicate it induces on the message, and
the DSL `filter` (`Option<QueryNode>`, whose `evaluate` lives outside this
repository snapshot) by the predicate it induces on the flat view. -/
structure LogQuery where
  fromTime : Option Int
  untilTime : Option Int
  limit : Option Nat
  start : Option Nat
  order : Order
  levels : List String
  fields : List String
  searchTerm : Option (String → Bool)
  filter : Option (Json → Bool)

/-- One day, in milliseconds (`chrono::Duration::days(1)`). -/
def oneDayMs : Int := 86400000

/-- `LogQuery::new()`.  The Rust code calls `Utc::now()` twice in direct
succession (once for `from`, once for `until`); both calls during one
construction are modelled by the single instant `now`. -/
def LogQuery.new (now : Int) : LogQuery :=
  { fromTime := some (now - oneDayMs)
    untilTime := some now
    limit := some 50
    start := some 0
    order := .descending
    fields := []
    levels := []
    searchTerm := none
    filter := none }

/-- `impl Default for LogQuery` delegates to `LogQuery::new()`. -/
def LogQuery.defaultQuery (now : Int) : LogQuery := LogQuery.new now

/-! ### Queryable file sink (`winston_file/src/lib.rs`) -/

/-- `LogInfo::to_flat_value` from `logform/src/log_info.rs`: a
`serde_json::Map` with `level`, `message`, then all meta entries at the
root. -/
def LogInfo.toFlatValue (info : LogInfo) : Json :=
  .obj (foldInsert info.meta
    (mapInsert "message" (.str info.message) (mapInsert "level" (.str info.level) [])))

/-- `FileTransport::extract_timestamp`: the meta key `timestamp`, if it is
a string that the external `dateparser::parse` accepts.  The parser is
the parameter `pt`. -/
def extractTimestamp (pt : String → Option Int) (entry : LogInfo) : Option Int :=
  match aLookup entry.meta "timestamp" with
  | some (.str ts) => pt ts
  | _ => none

/-- `FileTransport::matches_query`: level set, time range (a record
without a parseable timestamp fails any set bound), search regex on the
message, DSL filter on the flat view. -/
def matchesQuery (pt : String → Option Int) (q : LogQuery) (entry : LogInfo) : Bool :=
  if !q.levels.isEmpty && !q.levels.contains entry.level then false
  else if (match q.fromTime with
           | some f =>
             match extractTimestamp pt entry with
             | some ts => decide (ts < f)
             | none => true
           | none => false) then false
  else if (match q.untilTime with
           | some u =>
             match extractTimestamp pt entry with
             | some ts => decide (u < ts)
             | none => true
           | none => false) then false
  else if (match q.searchTerm with
           | some re => !re entry.message
           | none => false) then false
  else if (match q.filter with
           | some flt => !flt entry.toFlatValue
           | none => false) then false
  else true

/-- `usize::MAX` (64-bit), the value of `query.limit.unwrap_or(usize::MAX)`. -/
def usizeMax : Nat := 2 ^ 64 - 1

/-- The `for (index, line) in reader.lines().enumerate()` loop of
`FileTransport::query`: parse each line (the external `serde_json`-based
`parse_log_entry` is the parameter `parse`), keep entries that match the
query and whose raw line index is at least `start`, and stop once
`results.len() >= limit` for a non-zero `limit`. -/
def queryCollect (pt : String → Option Int) (parse : String → Option LogInfo)
    (q : LogQuery) : List String → Nat → List LogInfo → List LogInfo
  | [], _, results => results
  | line :: rest, index, results =>
    match parse line with
    | some entry =>
      if matchesQuery pt q entry then
        let results' := if q.start.getD 0 ≤ index then results ++ [entry] else results
        if q.limit.getD usizeMax ≤ results'.length ∧ q.limit.getD usizeMax ≠ 0 then results'
        else queryCollect pt parse q rest (index + 1) results'
      else queryCollect pt parse q rest (index + 1) results
    | none => queryCollect pt parse q rest (index + 1) results

/-- The comparator `extract_timestamp(a).cmp(&extract_timestamp(b))` as a
boolean `≤` on `Option` instants; `None` sorts below every `Some`, as in
Rust's `Option` ordering. -/
def tsLe (pt : String → Option Int) (a b : LogInfo) : Bool :=
  match extractTimestamp pt a, extractTimestamp pt b with
  | none, _ => true
  | some _, none => false
  | some x, some y => decide (x ≤ y)

/-- `FileTransport::sort_results`: stable sort by timestamp, ascending or
descending per the query order. -/
def sortResults (pt : String → Option Int) (q : LogQuery) (entries : List LogInfo) :
    List LogInfo :=
  match q.order with
  | .ascending => entries.insertionSort (fun a b => tsLe pt a b = true)
  | .descending => entries.insertionSort (fun a b => tsLe pt b a = true)

/-- The per-entry field projection of `FileTransport::query`: keep
`level`/`message` only when listed (case-insensitively) and keep only the
listed meta keys. -/
def projectEntry (normalizedFields : List String) (entry : LogInfo) : LogInfo :=
  { level := if normalizedFields.contains "level" then entry.level else ""
    message := if normalizedFields.contains "message" then entry.message else ""
    meta := entry.meta.filter (fun kv => normalizedFields.contains kv.1.toLower) }

/-- `FileTransport::query`: collect matching records (offset and cap
applied inside the loop), sort, then project fields when `fields` is
non-empty.  The file is given as its list of lines; I/O errors are not
modelled, so the result is always `ok`. -/
def fileQuery (pt : String → Option Int) (parse : String → Option LogInfo)
    (q : LogQuery) (lines : List String) : Except String (List LogInfo) :=
  let results := queryCollect pt parse q lines 0 []
  let results := sortResults pt q results
  let results :=
    if !q.fields.isEmpty then
      results.map (projectEntry (q.fields.map (·.toLower)))
    else results
  .ok results

/-- Modelled from the spec (`spec.md` §4.3, step 5: "Apply `start` as an
offset on the *post-filter* stream and `limit` as a cap"): the paging the
specification describes, to be compared with the collection loop the code
actually runs.  The records skipped are the first `start` stored records
that parse and match. -/
def specPostFilterCollect (pt : String → Option Int) (parse : String → Option LogInfo)
    (q : LogQuery) (lines : List String) : List LogInfo :=
  let matched := (lines.filterMap parse).filter (fun e => matchesQuery pt q e)
  let afterStart := matched.drop (q.start.getD 0)
  match q.limit with
  | some lim => if lim = 0 then afterStart else afterStart.take lim
  | none => afterStart

/-! ### Rotating file sink (`winston_daily_rotate_file/src/daily_rotate_file.rs`) -/

/-- The observable state of a `DailyRotateFile`: the entries of the files
already rotated away, the entries and byte size of the currently open
file, and the last-rotation instant.  (`get_file_size` flushes and reads
the file's length, which equals the summed byte size of the written
entries.) -/
structure RotateState where
  archived : List (List String)
  current : List String
  currentSize : Nat
  lastRotation : Int
deriving Repr, DecidableEq

/-- `format!("{}\n", info.message).len()`: the UTF-8 byte length of the
message plus the newline. -/
def entrySize (msg : String) : Nat := msg.utf8ByteSize + 1

/-- `DailyRotateFile::should_rotate`: rotate when the configured date
pattern formats `now` differently from the last rotation instant (the
chrono formatting in the configured zone is the parameter `fmtDate`), or
when `max_size` is set and `current_size + new_entry_size >= max_size`. -/
def shouldRotate (fmtDate : Int → String) (maxSize : Option Nat) (st : RotateState)
    (now : Int) (newEntrySize : Nat) : Bool :=
  if fmtDate st.lastRotation ≠ fmtDate now then true
  else
    match maxSize with
    | some m => decide (m ≤ st.currentSize + newEntrySize)
    | none => false

/-- `DailyRotateFile::rotate`: archive the current file, open a fresh
empty one, update the last-rotation instant. -/
def rotateFile (st : RotateState) (now : Int) : RotateState :=
  { archived := st.archived ++ [st.current]
    current := []
    currentSize := 0
    lastRotation := now }

/-- `DailyRotateFile::log`: compute the pending entry size, rotate first
if `should_rotate` says so, then append the message to the current file. -/
def dailyRotateLog (fmtDate : Int → String) (maxSize : Option Nat) (st : RotateState)
    (now : Int) (msg : String) : RotateState :=
  let size := entrySize msg
  let st' := if shouldRotate fmtDate maxSize st now size then rotateFile st now else st
  { st' with current := st'.current ++ [msg], currentSize := st'.currentSize + size }

/-! ### Batching wrapper (`winston_transport/src/batch_transport.rs`)

The worker thread consumes a FIFO channel; its behaviour is modelled as a
sequential run over the trace of events it observes: each received
message, or a receive timeout (whose `expired` flag records whether
`last_flush.elapsed() >= max_batch_time` held when it fired).  `flush()`
and `query()` on the handle block until the worker replies, which it does
right after processing the corresponding message, so "by the time
`flush()` returns" corresponds to "after the `flush` event is processed".
`Drop` with `flush_on_drop = true` sends `Shutdown` and joins, so the drop
guarantee corresponds to a trace ending in a `shutdown` event. -/

/-- Calls the worker makes into the inner transport. -/
inductive InnerOp (L : Type) where
  | logBatch (batch : List L)
  | flushCall
deriving Repr, DecidableEq

/-- Worker state: the pending batch and the calls made so far into the
inner transport. -/
structure BatchWorkerState (L : Type) where
  batch : List L
  innerOps : List (InnerOp L)
deriving Repr, DecidableEq

/-- Events the worker loop can observe. -/
inductive BatchEvent (L : Type) where
  | log (r : L)
  | flush
  | query
  | timeout (expired : Bool)
  | shutdown
  | disconnected
deriving Repr, DecidableEq

/-- The `flush_batch` closure: a non-empty batch is handed to
`inner.log_batch` and then `inner.flush`; an empty batch does nothing. -/
def flushBatch {L : Type} (s : BatchWorkerState L) : BatchWorkerState L :=
  if s.batch.isEmpty then s
  else { batch := [], innerOps := s.innerOps ++ [.logBatch s.batch, .flushCall] }

/-- `BatchedTransport::run_batch_thread`: push on `Log` (draining when the
batch reaches `max_batch_size`), drain on `Flush`/`Query`, drain on an
expired timeout with a non-empty batch, drain and exit on `Shutdown` or a
disconnected channel (later events are never processed). -/
def runBatchThread {L : Type} (maxBatchSize : Nat) :
    BatchWorkerState L → List (BatchEvent L) → BatchWorkerState L
  | s, [] => s
  | s, e :: rest =>
    match e with
    | .log r =>
      let s1 : BatchWorkerState L := { s with batch := s.batch ++ [r] }
      let s2 := if maxBatchSize ≤ s1.batch.length then flushBatch s1 else s1
      runBatchThread maxBatchSize s2 rest
    | .flush => runBatchThread maxBatchSize (flushBatch s) rest
    | .query => runBatchThread maxBatchSize (flushBatch s) rest
    | .timeout expired =>
      runBatchThread maxBatchSize (if !s.batch.isEmpty && expired then flushBatch s else s) rest
    | .shutdown => flushBatch s
    | .disconnected => flushBatch s

/-- The records the inner transport has received through `log_batch`, in
order. -/
def deliveredRecords {L : Type} : List (InnerOp L) → List L
  | [] => []
  | .logBatch b :: rest => b ++ deliveredRecords rest
  | .flushCall :: rest => deliveredRecords rest

/-- The records carried by the `log` events of a trace, in order. -/
def loggedRecords {L : Type} : List (BatchEvent L) → List L
  | [] => []
  | .log r :: rest => r :: loggedRecords rest
  | _ :: rest => loggedRecords rest

/-- The inner-call trace consists of blocks of a non-empty `log_batch`
immediately followed by a `flush`. -/
def opsWellFormed {L : Type} : List (InnerOp L) → Bool
  | [] => true
  | .logBatch b :: .flushCall :: rest => !b.isEmpty && opsWellFormed rest
  | _ => false

/-- A trace on which the worker loop never exits (no `shutdown` message
and no channel disconnection). -/
def noExit {L : Type} : List (BatchEvent L) → Bool
  | [] => true
  | .shutdown :: _ => false
  | .disconnected :: _ => false
  | _ :: rest => noExit rest

/-! ### Query DSL and document-store compilation
(`winston_mongodb/src/to_mongodb_filter.rs`)

The compiler itself is in the sources.  The DSL node types it consumes
live in `winston_transport::query_dsl`, which is not part of this source
snapshot; they are modelled from the spec (`spec.md` §3 "QueryNode
(DSL)"), which lists the comparators Eq, Ne, Gt, Lt, Gte, Lte, In, NotIn,
Exists, NotExists, Matches, NotMatches and the `QueryValue` variants. -/

/-- Modelled from the spec: `Comparator` with the twelve listed variants
(named as in the compiler's `match` arms). -/
inductive Comparator where
  | equals
  | notEquals
  | greaterThan
  | lessThan
  | greaterThanOrEqual
  | lessThanOrEqual
  | inOp
  | notInOp
  | existsOp
  | notExistsOp
  | matchesOp
  | notMatchesOp
deriving Repr, DecidableEq

/-- Modelled from the spec: `QueryValue`.  The `Number (f64)` payload is
inert in the compiler (passed through to a BSON double), so it is carried
as an `Int`; `DateTime` is milliseconds since epoch; `Duration` is carried
as its milliseconds; `Function` carries an unserializable closure and is
modelled as a bare constructor. -/
inductive QueryValue where
  | string (s : String)
  | number (n : Int)
  | boolean (b : Bool)
  | null
  | array (xs : List QueryValue)
  | regex (pattern : String)
  | dateTime (t : Int)
  | duration (ms : Int)
  | function
deriving Repr

/-- Modelled from the spec: `FieldComparison { comparator, value }`. -/
structure FieldComparison where
  comparator : Comparator
  value : QueryValue
deriving Repr

/-- Modelled from the spec: `LogicalOperator`. -/
inductive LogicalOperator where
  | and
  | or
deriving Repr, DecidableEq

/-- Modelled from the spec: `FieldLogic { operator, conditions }`. -/
structure FieldLogic where
  operator : LogicalOperator
  conditions : List FieldComparison
deriving Repr

/-- Modelled from the spec: `PathSegment`. -/
inductive PathSegment where
  | field (name : String)
  | wildcard
  | arrayIndex (i : Nat)
  | arrayWildcard
deriving Repr

/-- Modelled from the spec: `FieldPath` is a list of segments. -/
structure FieldPath where
  segments : List PathSegment
deriving Repr

/-- Modelled from the spec: `FieldNode = Comparison | Logic`. -/
inductive FieldNode where
  | comparison (c : FieldComparison)
  | logic (l : FieldLogic)
deriving Repr

/-- Modelled from the spec: `FieldQueryNode { path, node }`. -/
structure FieldQueryNode where
  path : FieldPath
  node : FieldNode
deriving Repr

/-- Modelled from the spec: the recursive `QueryNode`. -/
inductive QueryNode where
  | logic (operator : LogicalOperator) (children : List QueryNode)
  | fieldQuery (node : FieldQueryNode)
deriving Repr

/-- Model of `mongodb::bson::Bson` (the variants the compiler produces)
and, through `document`, of `bson::Document` as an insertion-ordered
association list. -/
inductive Bson where
  | string (s : String)
  | double (n : Int)
  | boolean (b : Bool)
  | null
  | array (xs : List Bson)
  | regex (pattern : String) (options : String)
  | dateTime (t : Int)
  | int64 (n : Int)
  | document (fields : List (String × Bson))
deriving Repr

/-- `bson::Document::insert`: replace the value in place when the key is
already present, otherwise append. -/
def docInsert (k : String) (v : Bson) : List (String × Bson) → List (String × Bson)
  | [] => [(k, v)]
  | (k', v') :: rest => if k = k' then (k, v) :: rest else (k', v') :: docInsert k v rest

/-- `value_to_bson` from `to_mongodb_filter.rs`. -/
def valueToBson : QueryValue → Bson
  | .string s => .string s
  | .number n => .double n
  | .boolean b => .boolean b
  | .null => .null
  | .array xs => .array (xs.attach.map (fun x => valueToBson x.1))
  | .regex r => .regex r ""
  | .dateTime t => .dateTime t
  | .duration ms => .int64 ms
  | .function => .null
decreasing_by
  simp_wf
  have := List.sizeOf_lt_of_mem x.2
  omega

/-- `field_path_to_string`: render each segment and join with dots. -/
def segmentString : PathSegment → String
  | .field name => name
  | .wildcard => "*"
  | .arrayIndex idx => "[" ++ toString idx ++ "]"
  | .arrayWildcard => "[*]"

def fieldPathToString (path : FieldPath) : String :=
  String.intercalate "." (path.segments.map segmentString)

/-- `impl ToMongoDbFilter for FieldComparison`: the comparator-to-operator
table; `Matches`/`NotMatches` emit a regex document only when the value is
a `Regex`, and the empty document otherwise. -/
def FieldComparison.toMongoFilter (c : FieldComparison) : List (String × Bson) :=
  match c.comparator with
  | .equals => [("$eq", valueToBson c.value)]
  | .notEquals => [("$ne", valueToBson c.value)]
  | .greaterThan => [("$gt", valueToBson c.value)]
  | .lessThan => [("$lt", valueToBson c.value)]
  | .greaterThanOrEqual => [("$gte", valueToBson c.value)]
  | .lessThanOrEqual => [("$lte", valueToBson c.value)]
  | .inOp => [("$in", valueToBson c.value)]
  | .notInOp => [("$nin", valueToBson c.value)]
  | .existsOp => [("$exists", .boolean true)]
  | .notExistsOp => [("$exists", .boolean false)]
  | .matchesOp =>
    match c.value with
    | .regex r => [("$regex", .string r)]
    | _ => []
  | .notMatchesOp =>
    match c.value with
    | .regex r => [("$not", .document [("$regex", .string r)])]
    | _ => []

/-- `impl ToMongoDbFilter for FieldLogic`: merge every condition's
comparator document into one document (AND on the same field). -/
def FieldLogic.toMongoFilter (l : FieldLogic) : List (String × Bson) :=
  l.conditions.foldl
    (fun merged c => c.toMongoFilter.foldl (fun d kv => docInsert kv.1 kv.2 d) merged) []

/-- `impl ToMongoDbFilter for FieldQueryNode`: a comparison (or an AND
field-logic) goes under the dotted field path; an OR field-logic expands
to a top-level `$or` with one `{field: comparator-document}` per
condition. -/
def FieldQueryNode.toMongoFilter (n : FieldQueryNode) : List (String × Bson) :=
  let fieldPath := fieldPathToString n.path
  match n.node with
  | .comparison comp => [(fieldPath, .document comp.toMongoFilter)]
  | .logic logic =>
    match logic.operator with
    | .and => [(fieldPath, .document logic.toMongoFilter)]
    | .or =>
      [("$or", .array (logic.conditions.map
        (fun c => .document [(fieldPath, .document c.toMongoFilter)])))]

/-- `impl ToMongoDbFilter for QueryNode` (with `QueryLogicNode` inlined):
logic nodes become `$and`/`$or` over the compiled children. -/
def QueryNode.toMongoFilter : QueryNode → List (String × Bson)
  | .logic op children =>
    [((match op with | .and => "$and" | .or => "$or"),
      .array (children.attach.map (fun c => .document c.1.toMongoFilter)))]
  | .fieldQuery n => n.toMongoFilter
decreasing_by
  simp_wf
  have := List.sizeOf_lt_of_mem c.2
  omega

/-- The keys of a compiled document. -/
def docKeys (d : List (String × Bson)) : List String := d.map (·.1)

/-- The stream of stored records that parse, match the query, and lie at a
zero-based line index of at least `start`, in file order: the
characterization of what the collection loop of `FileTransport::query`
actually keeps (its offset counts raw file lines, not matching records). -/
def matchedFrom (pt : String → Option Int) (parse : String → Option LogInfo)
    (q : LogQuery) : List String → Nat → List LogInfo
  | [], _ => []
  | line :: rest, idx =>
    match parse line with
    | some entry =>
      if matchesQuery pt q entry ∧ q.start.getD 0 ≤ idx then
        entry :: matchedFrom pt parse q rest (idx + 1)
      else matchedFrom pt parse q rest (idx + 1)
    | none => matchedFrom pt parse q rest (idx + 1)

/-! ## Theorems -/

/-! ### Map and rendering lemmas (for the JSON format) -/

theorem aLookup_mapInsert (k : String) (v : Json) (m : List (String × Json)) (key : String) :
    aLookup (mapInsert k v m) key = if key = k then some v else aLookup m key := by
  induction m with
  | nil => rfl
  | cons head rest ih =>
    obtain ⟨k', v'⟩ := head
    simp only [mapInsert]
    by_cases h1 : k < k'
    · simp only [if_pos h1, aLookup]
    · by_cases h2 : k = k'
      · subst h2
        simp only [if_neg h1, if_pos rfl, aLookup]
        by_cases hk : key = k <;> simp [hk]
      · simp only [if_neg h1, if_neg h2, aLookup, ih]
        by_cases hk' : key = k'
        · subst hk'
          have hkk : ¬key = k := fun hh => h2 hh.symm
          simp [hkk]
        · simp [hk']

theorem aLookup_eq_none_of_not_mem {α : Type} (l : List (String × α)) (key : String)
    (h : key ∉ aKeys l) : aLookup l key = none := by
  induction l with
  | nil => rfl
  | cons head rest ih =>
    obtain ⟨k, v⟩ := head
    simp only [aKeys, List.map_cons, List.mem_cons] at h
    push_neg at h
    simp only [aLookup, if_neg h.1]
    exact ih (by simpa [aKeys] using h.2)

theorem aLookup_foldInsert (l : List (String × Json)) (init : List (String × Json))
    (key : String) (hnodup : (aKeys l).Nodup) :
    aLookup (foldInsert l init) key =
      match aLookup l key with
      | some v => some v
      | none => aLookup init key := by
  induction l generalizing init with
  | nil => simp [foldInsert, aLookup]
  | cons head rest ih =>
    obtain ⟨k0, v0⟩ := head
    have hcons : List.Nodup (k0 :: aKeys rest) := by simpa [aKeys] using hnodup
    have hnr : (aKeys rest).Nodup := hcons.of_cons
    have hk0 : k0 ∉ aKeys rest := by
      have := hcons
      rw [List.nodup_cons] at this
      exact this.1
    show aLookup (foldInsert rest (mapInsert k0 v0 init)) key = _
    rw [ih _ hnr]
    by_cases hkey : key = k0
    · subst hkey
      rw [aLookup_eq_none_of_not_mem rest key hk0]
      simp [aLookup, aLookup_mapInsert]
    · simp only [aLookup, if_neg hkey, aLookup_mapInsert]

theorem hexDigit_bounded_ne_newline : ∀ n, n < 16 → hexDigit n ≠ '\n' := by decide

theorem digitChar_isDigit : ∀ m, m < 10 → (Char.ofNat (48 + m)).isDigit = true := by decide

theorem natDigits_isDigit (n : Nat) : ∀ c ∈ natDigits n, c.isDigit = true := by
  induction n using natDigits.induct with
  | case1 x hx =>
    intro c hc
    unfold natDigits at hc
    simp only [dif_pos hx, List.mem_singleton] at hc
    subst hc
    exact digitChar_isDigit x hx
  | case2 x hx ih =>
    intro c hc
    unfold natDigits at hc
    simp only [dif_neg hx, List.mem_append, List.mem_singleton] at hc
    rcases hc with hc | hc
    · exact ih c hc
    · subst hc
      exact digitChar_isDigit (x % 10) (Nat.mod_lt x (by decide))

theorem isDigit_ne_newline {c : Char} (h : c.isDigit = true) : c ≠ '\n' := by
  intro hh
  subst hh
  simp [Char.isDigit] at h

theorem intChars_ne_newline (i : Int) : ∀ c ∈ intChars i, c ≠ '\n' := by
  intro c hc
  unfold intChars at hc
  have hdig : ∀ d ∈ natDigits i.natAbs, d ≠ '\n' :=
    fun d hd => isDigit_ne_newline (natDigits_isDigit _ d hd)
  by_cases hneg : i < 0
  · simp only [if_pos hneg, List.mem_cons] at hc
    rcases hc with hc | hc
    · subst hc; decide
    · exact hdig c hc
  · simp only [if_neg hneg] at hc
    exact hdig c hc

theorem escapeChar_ne_newline (c : Char) : ∀ d ∈ escapeChar c, d ≠ '\n' := by
  intro d hd hh
  subst hh
  unfold escapeChar at hd
  by_cases h1 : c = '"'
  · rw [if_pos h1] at hd
    exact absurd hd (by decide)
  · rw [if_neg h1] at hd
    by_cases h2 : c = '\\'
    · rw [if_pos h2] at hd
      exact absurd hd (by decide)
    · rw [if_neg h2] at hd
      by_cases h3 : c = Char.ofNat 8
      · rw [if_pos h3] at hd
        exact absurd hd (by decide)
      · rw [if_neg h3] at hd
        by_cases h4 : c = Char.ofNat 9
        · rw [if_pos h4] at hd
          exact absurd hd (by decide)
        · rw [if_neg h4] at hd
          by_cases h5 : c = Char.ofNat 10
          · rw [if_pos h5] at hd
            exact absurd hd (by decide)
          · rw [if_neg h5] at hd
            by_cases h6 : c = Char.ofNat 12
            · rw [if_pos h6] at hd
              exact absurd hd (by decide)
            · rw [if_neg h6] at hd
              by_cases h7 : c = Char.ofNat 13
              · rw [if_pos h7] at hd
                exact absurd hd (by decide)
              · rw [if_neg h7] at hd
                by_cases h8 : c.toNat < 32
                · rw [if_pos h8] at hd
                  simp only [List.mem_cons] at hd
                  have hd4 : '\n' = hexDigit (c.toNat / 16) ∨ '\n' = hexDigit (c.toNat % 16) := by
                    rcases hd with hd | hd | hd | hd | hd | hd
                    · exact absurd hd (by decide)
                    · exact absurd hd (by decide)
                    · exact absurd hd (by decide)
                    · exact absurd hd (by decide)
                    · exact Or.inl hd
                    · rcases hd with hd | hd
                      · exact Or.inr hd
                      · exact absurd hd (List.not_mem_nil _)
                  rcases hd4 with hd4 | hd4
                  · exact hexDigit_bounded_ne_newline (c.toNat / 16) (by omega) hd4.symm
                  · exact hexDigit_bounded_ne_newline (c.toNat % 16) (by omega) hd4.symm
                · rw [if_neg h8] at hd
                  rcases List.mem_singleton.mp hd with rfl
                  exact h8 (by decide)

theorem mem_foldr_escape {s : List Char} {tail : List Char} {d : Char}
    (h : d ∈ s.foldr (fun c acc => escapeChar c ++ acc) tail) :
    d ∈ tail ∨ ∃ c ∈ s, d ∈ escapeChar c := by
  induction s with
  | nil => exact Or.inl h
  | cons x xs ih =>
    simp only [List.foldr_cons, List.mem_append] at h
    rcases h with h | h
    · exact Or.inr ⟨x, by simp, h⟩
    · rcases ih h with h | ⟨c, hc, hd⟩
      · exact Or.inl h
      · exact Or.inr ⟨c, by simp [hc], hd⟩

theorem strChars_ne_newline (s : String) : ∀ d ∈ strChars s, d ≠ '\n' := by
  intro d hd
  unfold strChars at hd
  rcases List.mem_cons.mp hd with hd | hd
  · subst hd; decide
  · rcases mem_foldr_escape hd with hd | ⟨c, _, hd⟩
    · rcases List.mem_singleton.mp hd with rfl; decide
    · exact escapeChar_ne_newline c d hd

theorem mem_joinWith {sep : Char} {pieces : List (List Char)} {c : Char}
    (h : c ∈ joinWith sep pieces) : c = sep ∨ ∃ p ∈ pieces, c ∈ p := by
  induction pieces with
  | nil => exact absurd h (List.not_mem_nil c)
  | cons x xs ih =>
    cases xs with
    | nil =>
      have hx : c ∈ x := h
      exact Or.inr ⟨x, by simp, hx⟩
    | cons y ys =>
      have h' : c ∈ x ++ sep :: joinWith sep (y :: ys) := h
      rcases List.mem_append.mp h' with hx | hrest
      · exact Or.inr ⟨x, by simp, hx⟩
      · rcases List.mem_cons.mp hrest with rfl | h2
        · exact Or.inl rfl
        · rcases ih h2 with hsep | ⟨p, hp, hc⟩
          · exact Or.inl hsep
          · exact Or.inr ⟨p, by simp [hp], hc⟩

theorem renderJson_ne_newline (v : Json) : ∀ c ∈ renderJson v, c ≠ '\n' := by
  induction v using renderJson.induct with
  | case1 =>
    intro c hc
    simp only [renderJson] at hc
    fin_cases hc <;> decide
  | case2 =>
    intro c hc
    simp only [renderJson] at hc
    fin_cases hc <;> decide
  | case3 =>
    intro c hc
    simp only [renderJson] at hc
    fin_cases hc <;> decide
  | case4 n =>
    intro c hc
    simp only [renderJson] at hc
    exact intChars_ne_newline n c hc
  | case5 s =>
    intro c hc
    simp only [renderJson] at hc
    exact strChars_ne_newline s c hc
  | case6 xs ih =>
    intro c hc
    rw [renderJson] at hc
    rcases List.mem_cons.mp hc with rfl | hc
    · decide
    · rcases List.mem_append.mp hc with hc | hc
      · rcases mem_joinWith hc with rfl | ⟨p, hp, hcp⟩
        · decide
        · rcases List.mem_map.mp hp with ⟨x, _, rfl⟩
          exact ih x c hcp
      · rcases List.mem_singleton.mp hc with rfl; decide
  | case7 fields ih =>
    intro c hc
    rw [renderJson] at hc
    rcases List.mem_cons.mp hc with rfl | hc
    · decide
    · rcases List.mem_append.mp hc with hc | hc
      · rcases mem_joinWith hc with rfl | ⟨p, hp, hcp⟩
        · decide
        · rcases List.mem_map.mp hp with ⟨kv, _, rfl⟩
          rcases List.mem_append.mp hcp with hcp | hcp
          · exact strChars_ne_newline _ c hcp
          · rcases List.mem_cons.mp hcp with rfl | hcp
            · decide
            · exact ih kv c hcp
      · rcases List.mem_singleton.mp hc with rfl; decide

/-! ### Stripping lemmas (for Colorize / Uncolorize) -/

theorem stripColors_nil : stripColors [] = [] := by
  rw [stripColors]

theorem stripColors_cons_ne (c : Char) (rest : List Char) (h : ¬c = escChar) :
    stripColors (c :: rest) = c :: stripColors rest := by
  by_cases hx : ∃ rest2, rest = '[' :: rest2
  · obtain ⟨rest2, rfl⟩ := hx
    rw [stripColors.eq_2, if_neg h]
  · rw [stripColors.eq_3 c rest (fun r2 hr => hx ⟨r2, hr⟩), if_neg h]

theorem stripColors_esc_match (rest2 rest3 : List Char)
    (h : List.dropWhile isSgrBody rest2 = 'm' :: rest3) :
    stripColors (escChar :: '[' :: rest2) = stripColors rest3 := by
  rw [stripColors.eq_2, if_pos rfl]
  split
  · rename_i rest3' heq
    injection h.symm.trans heq with h2 h3
    rw [h3]
  · rename_i hno
    exact absurd h (hno rest3)

theorem stripColors_noEsc (l : List Char) (h : escChar ∉ l) : stripColors l = l := by
  induction l with
  | nil => exact stripColors_nil
  | cons c rest ih =>
    have hc : ¬c = escChar := fun hh => h (hh ▸ List.mem_cons_self c rest)
    rw [stripColors_cons_ne c rest hc, ih (fun hm => h (List.mem_cons_of_mem c hm))]

theorem stripColors_append_noEsc (l r : List Char) (h : escChar ∉ l) :
    stripColors (l ++ r) = l ++ stripColors r := by
  induction l with
  | nil => simp
  | cons c rest ih =>
    have hc : ¬c = escChar := fun hh => h (hh ▸ List.mem_cons_self c rest)
    rw [List.cons_append, stripColors_cons_ne _ _ hc,
      ih (fun hm => h (List.mem_cons_of_mem c hm))]
    rfl

theorem natDigits_sgrBody (n : Nat) : ∀ c ∈ natDigits n, isSgrBody c = true := by
  intro c hc
  unfold isSgrBody
  rw [natDigits_isDigit n c hc]
  rfl

theorem joinCodes_sgrBody (codes : List Nat) :
    ∀ c ∈ joinWith ';' (codes.map natDigits), isSgrBody c = true := by
  intro c hc
  rcases mem_joinWith hc with rfl | ⟨p, hp, hcp⟩
  · decide
  · rcases List.mem_map.mp hp with ⟨n, _, rfl⟩
    exact natDigits_sgrBody n c hcp

theorem dropWhile_sgrBody_append (ds : List Char) (rest : List Char)
    (h : ∀ c ∈ ds, isSgrBody c = true) :
    List.dropWhile isSgrBody (ds ++ 'm' :: rest) = 'm' :: rest := by
  induction ds with
  | nil =>
    rw [List.nil_append]
    exact List.dropWhile_cons_of_neg (by decide)
  | cons d ds ih =>
    rw [List.cons_append, List.dropWhile_cons_of_pos (h d (by simp))]
    exact ih (fun c hc => h c (by simp [hc]))

theorem stripColors_sgrSeq_append (codes : List Nat) (rest : List Char) :
    stripColors (sgrSeq codes ++ rest) = stripColors rest := by
  show stripColors
      (escChar :: '[' :: ((joinWith ';' (codes.map natDigits) ++ ['m']) ++ rest)) =
    stripColors rest
  rw [List.append_assoc, List.singleton_append]
  exact stripColors_esc_match _ rest (dropWhile_sgrBody_append _ _ (joinCodes_sgrBody codes))

theorem stripColors_resetSeq : stripColors resetSeq = [] :=
  (stripColors_esc_match ['0', 'm'] [] (by decide)).trans stripColors_nil

theorem reapplyAfterResets_cons_ne (style : List Char) (c : Char) (rest : List Char)
    (h : ¬c = escChar) :
    reapplyAfterResets style (c :: rest) = c :: reapplyAfterResets style rest := by
  by_cases hx : ∃ rest2, rest = '[' :: '0' :: 'm' :: rest2
  · obtain ⟨rest2, rfl⟩ := hx
    rw [reapplyAfterResets.eq_2, if_neg h]
  · rw [reapplyAfterResets.eq_3 style c rest (fun r2 hr => hx ⟨r2, hr⟩), if_neg h]

theorem reapplyAfterResets_noEsc (style l : List Char) (h : escChar ∉ l) :
    reapplyAfterResets style l = l := by
  induction l with
  | nil => rfl
  | cons c rest ih =>
    have hc : ¬c = escChar := fun hh => h (hh ▸ List.mem_cons_self c rest)
    rw [reapplyAfterResets_cons_ne style c rest hc,
      ih (fun hm => h (List.mem_cons_of_mem c hm))]

theorem applyColor_input (cs : ColoredString) (color : String) :
    (applyColor cs color).input = cs.input := by
  unfold applyColor
  split <;> rfl

theorem foldApply_input (colors : List String) (cs : ColoredString) :
    (colors.foldl applyColor cs).input = cs.input := by
  induction colors generalizing cs with
  | nil => rfl
  | cons c cols ih => rw [List.foldl_cons, ih, applyColor_input]

theorem stripColors_renderColored (cs : ColoredString) (h : escChar ∉ cs.input) :
    stripColors (renderColored cs) = cs.input := by
  unfold renderColored
  split
  · exact stripColors_noEsc _ h
  · rw [reapplyAfterResets_noEsc _ _ h, List.append_assoc, stripColors_sgrSeq_append,
      stripColors_append_noEsc _ _ h, stripColors_resetSeq, List.append_nil]

theorem strip_colorizeText (c : Colorizer) (lvl text : String)
    (h : escChar ∉ text.data) :
    stripColors (c.colorizeText lvl text).data = text.data := by
  unfold Colorizer.colorizeText
  cases aLookup c.allColors lvl with
  | none => exact stripColors_noEsc _ h
  | some colors =>
    show stripColors (renderColored (colors.foldl applyColor (ColoredString.normal text.data)))
      = text.data
    rw [stripColors_renderColored _ (by rw [foldApply_input]; exact h), foldApply_input]
    rfl

/-- C7 (amended): uncolorizing after colorizing restores the original
level and message when both fields are in scope of both formats, for
records whose level and message contain no ESC (`\x1b`) character (a
pre-existing ANSI sequence in the record would also be stripped, see the
counterexample). -/
theorem uncolorize_after_colorize_id (c : Colorizer) (u : Uncolorize) (r : LogInfo)
    (hscope1 : (c.all || c.level) = true) (hscope2 : (c.all || c.message) = true)
    (hul : u.level = true) (hum : u.message = true)
    (hl : escChar ∉ r.level.data) (hm : escChar ∉ r.message.data) :
    ∃ r1 r2, c.transform r = some r1 ∧ u.transform r1 = some r2 ∧
      r2.level = r.level ∧ r2.message = r.message := by
  have h1 : c.transform r = some
      { level := c.colorizeText r.level r.level,
        message := c.colorizeText r.level r.message, meta := r.meta } := by
    unfold Colorizer.transform
    rw [hscope1, hscope2]
    rfl
  have h2 : u.transform
      { level := c.colorizeText r.level r.level,
        message := c.colorizeText r.level r.message, meta := r.meta } = some
      { level := String.mk (stripColors (c.colorizeText r.level r.level).data),
        message := String.mk (stripColors (c.colorizeText r.level r.message).data),
        meta := r.meta } := by
    unfold Uncolorize.transform
    rw [hul, hum]
    rfl
  refine ⟨_, _, h1, h2, ?_, ?_⟩
  · show String.mk (stripColors (c.colorizeText r.level r.level).data) = r.level
    rw [strip_colorizeText c r.level r.level hl]
  · show String.mk (stripColors (c.colorizeText r.level r.message).data) = r.message
    rw [strip_colorizeText c r.level r.message hm]

/-- Witness for `uncolorize_after_colorize_id`: a colorized `info` record
round-trips. -/
theorem uncolorize_after_colorize_id_witness :
    (((Colorizer.mk [("info", ["green"])] false true true).all ||
        (Colorizer.mk [("info", ["green"])] false true true).level) = true) ∧
    (escChar ∉ ("hello" : String).data) ∧
    ∃ r1 r2,
      Colorizer.transform (Colorizer.mk [("info", ["green"])] false true true)
          (LogInfo.mk "info" "hello" []) = some r1 ∧
      Uncolorize.transform (Uncolorize.mk true true) r1 = some r2 ∧
      r2.level = "info" ∧ r2.message = "hello" :=
  ⟨rfl, by decide,
    uncolorize_after_colorize_id
      (Colorizer.mk [("info", ["green"])] false true true)
      (Uncolorize.mk true true)
      (LogInfo.mk "info" "hello" [])
      rfl rfl rfl rfl (by decide) (by decide)⟩

/-- C7 counterexample: for a record whose message already contains an SGR
sequence, colorize (both fields in scope) followed by uncolorize does not
return the original message: the pre-existing sequence is stripped too, so
the claim as stated (for every record) is false. -/
theorem uncolorize_after_colorize_cex :
    ∃ r1 r2,
      Colorizer.transform (Colorizer.mk [("info", ["green"])] true true true)
          (LogInfo.mk "other" (String.mk [escChar, '[', '0', 'm']) []) = some r1 ∧
      Uncolorize.transform (Uncolorize.mk true true) r1 = some r2 ∧
      r2.message = "" ∧ ¬String.mk [escChar, '[', '0', 'm'] = "" := by
  have hmsg : stripColors [escChar, '[', '0', 'm'] = [] :=
    (stripColors_esc_match ['0', 'm'] [] (by decide)).trans stripColors_nil
  have hlvl : stripColors ("other" : String).data = ("other" : String).data :=
    stripColors_noEsc _ (by decide)
  refine ⟨_, _, rfl, rfl, ?_, by decide⟩
  show String.mk (stripColors (Colorizer.colorizeText (Colorizer.mk [("info", ["green"])] true true true) "other"
    (String.mk [escChar, '[', '0', 'm'])).data) = ""
  have hid : Colorizer.colorizeText (Colorizer.mk [("info", ["green"])] true true true)
      "other" (String.mk [escChar, '[', '0', 'm']) = String.mk [escChar, '[', '0', 'm'] := rfl
  rw [hid]
  show String.mk (stripColors [escChar, '[', '0', 'm']) = ""
  rw [hmsg]

/-- C5: for every record `r` (meta keys unique, as in a `HashMap`) the
JSON format always produces `Some` output; the output's `meta` is empty
and its `message` is the compact one-line serialization (it contains no
newline) of exactly the object `{level: r.level, message: r.message}`
merged with all key-value pairs of `r.meta` (meta entries overriding on
key collision, as `serde_json::Map::insert` does). -/
theorem jsonFormat_message_is_merged_object (r : LogInfo)
    (hnodup : (aKeys r.meta).Nodup) :
    ∃ merged,
      JsonFormat.transform r =
        some { level := r.level, message := String.mk (renderJson (.obj merged)),
               meta := [] } ∧
      (∀ key, aLookup merged key =
        match aLookup r.meta key with
        | some v => some v
        | none =>
          if key = "level" then some (.str r.level)
          else if key = "message" then some (.str r.message)
          else none) ∧
      (∀ c ∈ renderJson (.obj merged), c ≠ '\n') := by
  refine ⟨foldInsert r.meta
    (mapInsert "message" (.str r.message) (mapInsert "level" (.str r.level) [])), rfl, ?_,
    renderJson_ne_newline _⟩
  intro key
  rw [aLookup_foldInsert _ _ _ hnodup]
  cases aLookup r.meta key with
  | some v => rfl
  | none =>
    simp only [aLookup_mapInsert]
    by_cases hmsg : key = "message"
    · subst hmsg
      simp
    · by_cases hlvl : key = "level"
      · subst hlvl
        simp
      · simp [hmsg, hlvl, aLookup]

/-- Witness for `jsonFormat_message_is_merged_object` at the spec's §8
example record. -/
theorem jsonFormat_message_is_merged_object_witness :
    (aKeys [("user_id", Json.num 12345), ("session_id", Json.str "abcde12345")]).Nodup ∧
    ∃ merged,
      JsonFormat.transform
          { level := "info", message := "User logged in",
            meta := [("user_id", Json.num 12345), ("session_id", Json.str "abcde12345")] } =
        some { level := "info", message := String.mk (renderJson (.obj merged)),
               meta := [] } ∧
      (∀ key, aLookup merged key =
        match aLookup [("user_id", Json.num 12345), ("session_id", Json.str "abcde12345")] key with
        | some v => some v
        | none =>
          if key = "level" then some (.str "info")
          else if key = "message" then some (.str "User logged in")
          else none) ∧
      (∀ c ∈ renderJson (.obj merged), c ≠ '\n') :=
  ⟨by decide, jsonFormat_message_is_merged_object
    { level := "info", message := "User logged in",
      meta := [("user_id", Json.num 12345), ("session_id", Json.str "abcde12345")] }
    (by decide)⟩

/-- C2: for every pair of formats `f` and `g` and every record `r`,
`chain(f,g).transform(r)` is `g.transform` applied to the output of
`f.transform(r)` when that output exists and `None` when `f` drops the
record (so the chain drops whenever either stage does), and chaining is
associative: `chain(chain(f,g),h)` and `chain(f,chain(g,h))` transform
every record to the same result. -/
theorem chain_bind_and_assoc {α : Type} (f g h : Format α) (r : α) :
    ((f.chain g).transform r =
      match f.transform r with
      | some mid => g.transform mid
      | none => none) ∧
    ((f.chain g).chain h).transform r = (f.chain (g.chain h)).transform r := by
  constructor
  · cases hf : f.transform r <;> simp [Format.chain, hf]
  · cases hf : f.transform r <;> simp [Format.chain, hf]

/-- C9: a `LogQuery` built with `new()` (or `Default`) does not leave the
time range unset: `from` is one day (86,400,000 ms) before the
construction instant and `until` is the construction instant, alongside
`limit = 50`, `start = 0`, descending order, empty levels and fields, no
search term and no filter. -/
theorem logQuery_new_defaults (now : Int) :
    (LogQuery.new now).fromTime = some (now - oneDayMs) ∧
    oneDayMs = 86400000 ∧
    (LogQuery.new now).untilTime = some now ∧
    (LogQuery.new now).limit = some 50 ∧
    (LogQuery.new now).start = some 0 ∧
    (LogQuery.new now).order = .descending ∧
    (LogQuery.new now).levels = [] ∧
    (LogQuery.new now).fields = [] ∧
    (LogQuery.new now).searchTerm = none ∧
    (LogQuery.new now).filter = none ∧
    LogQuery.defaultQuery now = LogQuery.new now :=
  ⟨rfl, rfl, rfl, rfl, rfl, rfl, rfl, rfl, rfl, rfl, rfl⟩

/-- C3: on a single-record write the rotating file sink rotates exactly
when the date pattern formats the current instant differently from the
last rotation instant, or `max_size` is set and the current size plus the
pending entry size (UTF-8 length of the message plus the newline) is at
least `max_size`; in the boundary case where the sum equals `max_size`
exactly (and the date is unchanged) the write lands in the post-rotation
file. -/
theorem dailyRotate_log_rotation_iff (fmtDate : Int → String) (maxSize : Option Nat)
    (st : RotateState) (now : Int) (msg : String) :
    ((dailyRotateLog fmtDate maxSize st now msg).archived.length = st.archived.length + 1 ↔
      fmtDate now ≠ fmtDate st.lastRotation ∨
        ∃ m, maxSize = some m ∧ m ≤ st.currentSize + entrySize msg) ∧
    (∀ m, fmtDate now = fmtDate st.lastRotation → maxSize = some m →
      st.currentSize + entrySize msg = m →
      (dailyRotateLog fmtDate maxSize st now msg).current = [msg] ∧
        (dailyRotateLog fmtDate maxSize st now msg).archived =
          st.archived ++ [st.current]) := by
  have hsr : shouldRotate fmtDate maxSize st now (entrySize msg) = true ↔
      fmtDate now ≠ fmtDate st.lastRotation ∨
        ∃ m, maxSize = some m ∧ m ≤ st.currentSize + entrySize msg := by
    unfold shouldRotate
    by_cases hfmt : fmtDate st.lastRotation ≠ fmtDate now
    · simp only [if_pos hfmt]
      exact ⟨fun _ => Or.inl (fun hh => hfmt hh.symm), fun _ => trivial⟩
    · push_neg at hfmt
      rw [if_neg (by simp [hfmt])]
      cases maxSize with
      | none => simp [hfmt]
      | some m => simp [hfmt]
  constructor
  · have harch : (dailyRotateLog fmtDate maxSize st now msg).archived =
        (if shouldRotate fmtDate maxSize st now (entrySize msg) then rotateFile st now
          else st).archived := rfl
    rw [harch]
    rw [← hsr]
    cases hb : shouldRotate fmtDate maxSize st now (entrySize msg) <;>
      simp [hb, rotateFile]
  · intro m hfmt hms hsum
    have hrot : shouldRotate fmtDate maxSize st now (entrySize msg) = true := by
      rw [hsr]
      exact Or.inr ⟨m, hms, le_of_eq hsum.symm⟩
    constructor
    · show (if shouldRotate fmtDate maxSize st now (entrySize msg) then rotateFile st now
          else st).current ++ [msg] = [msg]
      rw [hrot]
      rfl
    · show (if shouldRotate fmtDate maxSize st now (entrySize msg) then rotateFile st now
          else st).archived = st.archived ++ [st.current]
      rw [hrot]
      rfl

/-- Witness for `dailyRotate_log_rotation_iff`: a 4-byte message plus
newline against `current_size = 5` and `max_size = 10` is the exact
boundary; the write rotates and lands in the fresh file. -/
theorem dailyRotate_log_rotation_iff_witness :
    (dailyRotateLog (fun _ => "day") (some 10)
        { archived := [], current := ["abcd"], currentSize := 5, lastRotation := 0 }
        0 "abcd").current = ["abcd"] ∧
      (dailyRotateLog (fun _ => "day") (some 10)
        { archived := [], current := ["abcd"], currentSize := 5, lastRotation := 0 }
        0 "abcd").archived = [["abcd"]] := by
  have h := (dailyRotate_log_rotation_iff (fun _ => "day") (some 10)
    { archived := [], current := ["abcd"], currentSize := 5, lastRotation := 0 }
    0 "abcd").2 10 rfl rfl (by decide)
  exact ⟨h.1, by rw [h.2]; rfl⟩

/-! ### Query-loop lemmas (for the queryable file sink) -/

theorem queryCollect_eq (pt : String → Option Int) (parse : String → Option LogInfo)
    (q : LogQuery) (lines : List String) :
    ∀ (idx : Nat) (acc : List LogInfo),
      (q.limit.getD usizeMax = 0 →
        queryCollect pt parse q lines idx acc = acc ++ matchedFrom pt parse q lines idx) ∧
      (q.limit.getD usizeMax ≠ 0 → acc.length < q.limit.getD usizeMax →
        queryCollect pt parse q lines idx acc =
          acc ++ (matchedFrom pt parse q lines idx).take
            (q.limit.getD usizeMax - acc.length)) := by
  induction lines with
  | nil =>
    intro idx acc
    constructor
    · intro _
      simp [queryCollect, matchedFrom]
    · intro _ _
      simp [queryCollect, matchedFrom]
  | cons line rest ih =>
    intro idx acc
    cases hp : parse line with
    | none =>
      have hqc : queryCollect pt parse q (line :: rest) idx acc =
          queryCollect pt parse q rest (idx + 1) acc := by
        simp only [queryCollect, hp]
      have hmf : matchedFrom pt parse q (line :: rest) idx =
          matchedFrom pt parse q rest (idx + 1) := by
        simp only [matchedFrom, hp]
      constructor
      · intro hlim0
        rw [hqc, hmf]
        exact (ih (idx + 1) acc).1 hlim0
      · intro hne hlt
        rw [hqc, hmf]
        exact (ih (idx + 1) acc).2 hne hlt
    | some entry =>
      by_cases hm : matchesQuery pt q entry = true
      · by_cases hs : q.start.getD 0 ≤ idx
        · have hmf : matchedFrom pt parse q (line :: rest) idx =
              entry :: matchedFrom pt parse q rest (idx + 1) := by
            simp only [matchedFrom, hp]
            rw [if_pos (And.intro hm hs)]
          have hqc : queryCollect pt parse q (line :: rest) idx acc =
              if q.limit.getD usizeMax ≤ (acc ++ [entry]).length ∧
                  q.limit.getD usizeMax ≠ 0 then acc ++ [entry]
              else queryCollect pt parse q rest (idx + 1) (acc ++ [entry]) := by
            simp only [queryCollect, hp]
            rw [if_pos hm, if_pos hs]
          constructor
          · intro hlim0
            have hbrk : ¬(q.limit.getD usizeMax ≤ (acc ++ [entry]).length ∧
                q.limit.getD usizeMax ≠ 0) := by
              rw [hlim0]
              simp
            rw [hqc, if_neg hbrk, hmf, (ih (idx + 1) (acc ++ [entry])).1 hlim0]
            simp
          · intro hne hlt
            by_cases hfin : q.limit.getD usizeMax ≤ acc.length + 1
            · have hbrk : q.limit.getD usizeMax ≤ (acc ++ [entry]).length ∧
                  q.limit.getD usizeMax ≠ 0 := by
                constructor
                · simpa using hfin
                · exact hne
              have hone : q.limit.getD usizeMax - acc.length = 1 := by omega
              rw [hqc, if_pos hbrk, hmf, hone, List.take_succ_cons, List.take_zero]
            · have hbrk : ¬(q.limit.getD usizeMax ≤ (acc ++ [entry]).length ∧
                  q.limit.getD usizeMax ≠ 0) := by
                intro hh
                apply hfin
                simpa using hh.1
              have hsucc : q.limit.getD usizeMax - acc.length =
                  (q.limit.getD usizeMax - (acc.length + 1)) + 1 := by omega
              rw [hqc, if_neg hbrk, hmf,
                (ih (idx + 1) (acc ++ [entry])).2 hne
                  (by simpa using Nat.lt_of_not_le hfin),
                hsucc, List.take_succ_cons]
              simp
        · have hmf : matchedFrom pt parse q (line :: rest) idx =
              matchedFrom pt parse q rest (idx + 1) := by
            simp only [matchedFrom, hp]
            rw [if_neg (fun hh => hs hh.2)]
          have hqc : queryCollect pt parse q (line :: rest) idx acc =
              if q.limit.getD usizeMax ≤ acc.length ∧ q.limit.getD usizeMax ≠ 0 then acc
              else queryCollect pt parse q rest (idx + 1) acc := by
            simp only [queryCollect, hp]
            rw [if_pos hm, if_neg hs]
          constructor
          · intro hlim0
            have hbrk : ¬(q.limit.getD usizeMax ≤ acc.length ∧
                q.limit.getD usizeMax ≠ 0) := by
              rw [hlim0]
              simp
            rw [hqc, if_neg hbrk, hmf]
            exact (ih (idx + 1) acc).1 hlim0
          · intro hne hlt
            have hbrk : ¬(q.limit.getD usizeMax ≤ acc.length ∧
                q.limit.getD usizeMax ≠ 0) := fun hh => by omega
            rw [hqc, if_neg hbrk, hmf]
            exact (ih (idx + 1) acc).2 hne hlt
      · have hmf : matchedFrom pt parse q (line :: rest) idx =
            matchedFrom pt parse q rest (idx + 1) := by
          simp only [matchedFrom, hp]
          rw [if_neg (fun hh => hm hh.1)]
        have hqc : queryCollect pt parse q (line :: rest) idx acc =
            queryCollect pt parse q rest (idx + 1) acc := by
          simp only [queryCollect, hp]
          rw [if_neg hm]
        constructor
        · intro hlim0
          rw [hqc, hmf]
          exact (ih (idx + 1) acc).1 hlim0
        · intro hne hlt
          rw [hqc, hmf]
          exact (ih (idx + 1) acc).2 hne hlt

theorem matchedFrom_length_le (pt : String → Option Int) (parse : String → Option LogInfo)
    (q : LogQuery) (lines : List String) :
    ∀ idx, (matchedFrom pt parse q lines idx).length ≤ lines.length := by
  induction lines with
  | nil => intro idx; simp [matchedFrom]
  | cons line rest ih =>
    intro idx
    cases hp : parse line with
    | none =>
      simp only [matchedFrom, hp, List.length_cons]
      exact Nat.le_succ_of_le (ih (idx + 1))
    | some entry =>
      by_cases hc : matchesQuery pt q entry = true ∧ q.start.getD 0 ≤ idx
      · simp only [matchedFrom, hp, if_pos hc, List.length_cons]
        exact Nat.succ_le_succ (ih (idx + 1))
      · simp only [matchedFrom, hp, if_neg hc, List.length_cons]
        exact Nat.le_succ_of_le (ih (idx + 1))

theorem mem_queryCollect (pt : String → Option Int) (parse : String → Option LogInfo)
    (q : LogQuery) (lines : List String) :
    ∀ idx acc x, x ∈ queryCollect pt parse q lines idx acc →
      x ∈ acc ∨ matchesQuery pt q x = true := by
  induction lines with
  | nil =>
    intro idx acc x hx
    exact Or.inl hx
  | cons line rest ih =>
    intro idx acc x hx
    cases hp : parse line with
    | none =>
      simp only [queryCollect, hp] at hx
      exact ih _ _ _ hx
    | some entry =>
      simp only [queryCollect, hp] at hx
      by_cases hm : matchesQuery pt q entry = true
      · rw [if_pos hm] at hx
        by_cases hs : q.start.getD 0 ≤ idx
        · rw [if_pos hs] at hx
          split at hx
          · rcases List.mem_append.mp hx with hx | hx
            · exact Or.inl hx
            · rcases List.mem_singleton.mp hx with rfl
              exact Or.inr hm
          · rcases ih _ _ _ hx with hx | hx
            · rcases List.mem_append.mp hx with hx | hx
              · exact Or.inl hx
              · rcases List.mem_singleton.mp hx with rfl
                exact Or.inr hm
            · exact Or.inr hx
        · rw [if_neg hs] at hx
          split at hx
          · exact Or.inl hx
          · exact ih _ _ _ hx
      · rw [if_neg hm] at hx
        exact ih _ _ _ hx

/-- C1 (amended): in the queryable file sink's query, the `start` offset is
applied to the raw zero-based line index of the file, not to the
post-filter stream: a stored record is collected iff it parses, matches
the query, and its line index is at least `start` (lines that do not parse
or do not match still consume index positions); `limit` (absent meaning
`usize::MAX`, `Some 0` meaning no cap) then caps the number of collected
records, and the query returns the sort and field projection of that
collection. -/
theorem fileQuery_start_offsets_line_index (pt : String → Option Int)
    (parse : String → Option LogInfo) (q : LogQuery) (lines : List String) :
    fileQuery pt parse q lines = .ok (
      let collected :=
        if q.limit.getD usizeMax = 0 then matchedFrom pt parse q lines 0
        else (matchedFrom pt parse q lines 0).take (q.limit.getD usizeMax)
      let sorted := sortResults pt q collected
      if !q.fields.isEmpty then sorted.map (projectEntry (q.fields.map (·.toLower)))
      else sorted) := by
  have hcoll : queryCollect pt parse q lines 0 [] =
      if q.limit.getD usizeMax = 0 then matchedFrom pt parse q lines 0
      else (matchedFrom pt parse q lines 0).take (q.limit.getD usizeMax) := by
    by_cases h0 : q.limit.getD usizeMax = 0
    · rw [if_pos h0, (queryCollect_eq pt parse q lines 0 []).1 h0]
      rfl
    · rw [if_neg h0, (queryCollect_eq pt parse q lines 0 []).2 h0
        (by simp; exact Nat.pos_of_ne_zero h0)]
      simp
  unfold fileQuery
  rw [hcoll]

/-- C1 counterexample: with a file whose line 0 does not parse and whose
line 1 holds the only matching record, a query with `start = 1` returns
that record (its line index is 1), whereas the spec's post-filter offset
(skip the first 1 parsed-and-matching records) returns nothing. -/
theorem fileQuery_start_not_post_filter_cex :
    fileQuery (fun _ => none)
        (fun s => if s = "good" then some (LogInfo.mk "info" "good" []) else none)
        (LogQuery.mk none none none (some 1) .ascending [] [] none none)
        ["bad", "good"] = .ok [LogInfo.mk "info" "good" []] ∧
    specPostFilterCollect (fun _ => none)
        (fun s => if s = "good" then some (LogInfo.mk "info" "good" []) else none)
        (LogQuery.mk none none none (some 1) .ascending [] [] none none)
        ["bad", "good"] = [] := by
  constructor
  · rfl
  · rfl

/-- C10: a `limit` of `Some 0` and an absent `limit` both impose no cap on
the queryable file sink's collection loop (for the absent case because a
file read into memory has fewer than `usize::MAX` lines): every matching
record past the offset is collected; the stream is truncated only for
`Some k` with `k > 0`, after `k` records. -/
theorem fileQuery_limit_semantics (pt : String → Option Int)
    (parse : String → Option LogInfo) (q : LogQuery) (lines : List String) :
    (q.limit = some 0 →
      queryCollect pt parse q lines 0 [] = matchedFrom pt parse q lines 0) ∧
    (q.limit = none → lines.length < usizeMax →
      queryCollect pt parse q lines 0 [] = matchedFrom pt parse q lines 0) ∧
    (∀ k, q.limit = some k → 0 < k →
      queryCollect pt parse q lines 0 [] = (matchedFrom pt parse q lines 0).take k) := by
  refine ⟨?_, ?_, ?_⟩
  · intro h0
    have hl : q.limit.getD usizeMax = 0 := by rw [h0]; rfl
    rw [(queryCollect_eq pt parse q lines 0 []).1 hl]
    rfl
  · intro hnone hlen
    have hl : q.limit.getD usizeMax = usizeMax := by rw [hnone]; rfl
    have hne : q.limit.getD usizeMax ≠ 0 := by rw [hl]; decide
    rw [(queryCollect_eq pt parse q lines 0 []).2 hne
      (by rw [hl]; simpa using Nat.pos_of_ne_zero (by decide))]
    rw [List.nil_append, hl]
    simp only [List.length_nil, Nat.sub_zero]
    exact List.take_of_length_le
      (Nat.le_of_lt (Nat.lt_of_le_of_lt (matchedFrom_length_le pt parse q lines 0) hlen))
  · intro k hk hkpos
    have hl : q.limit.getD usizeMax = k := by rw [hk]; rfl
    rw [(queryCollect_eq pt parse q lines 0 []).2 (by rw [hl]; omega) (by rw [hl]; simpa using hkpos)]
    rw [List.nil_append, hl]
    simp only [List.length_nil, Nat.sub_zero]

/-- Witness for `fileQuery_limit_semantics`: an absent limit on a
two-line file (fewer than `usize::MAX` lines) collects both matching
records. -/
theorem fileQuery_limit_semantics_witness :
    (["a", "b"] : List String).length < usizeMax ∧
    queryCollect (fun _ => none) (fun s => some (LogInfo.mk "info" s []))
        (LogQuery.mk none none none none .ascending [] [] none none) ["a", "b"] 0 [] =
      matchedFrom (fun _ => none) (fun s => some (LogInfo.mk "info" s []))
        (LogQuery.mk none none none none .ascending [] [] none none) ["a", "b"] 0 :=
  ⟨by decide,
    (fileQuery_limit_semantics (fun _ => none) (fun s => some (LogInfo.mk "info" s []))
      (LogQuery.mk none none none none .ascending [] [] none none) ["a", "b"]).2.1
      rfl (by decide)⟩

/-- C8: in the queryable file sink's query a record whose meta lacks a
parseable string timestamp fails the match (and so never enters the
collected results) whenever `from` or `until` is set; with neither bound
set, the match is exactly the level/search/filter conjunction, so a
missing timestamp does not by itself exclude a record. -/
theorem matchesQuery_missing_timestamp (pt : String → Option Int) (q : LogQuery)
    (e : LogInfo) :
    (extractTimestamp pt e = none → (q.fromTime ≠ none ∨ q.untilTime ≠ none) →
      matchesQuery pt q e = false ∧
      ∀ (parse : String → Option LogInfo) (lines : List String) (idx : Nat),
        e ∉ queryCollect pt parse q lines idx []) ∧
    (q.fromTime = none → q.untilTime = none →
      matchesQuery pt q e =
        ((q.levels.isEmpty || q.levels.contains e.level) &&
          (match q.searchTerm with | some re => re e.message | none => true) &&
          (match q.filter with | some flt => flt e.toFlatValue | none => true))) := by
  constructor
  · intro hts hbound
    have hfalse : matchesQuery pt q e = false := by
      unfold matchesQuery
      cases hf : q.fromTime with
      | some f => simp [hts]
      | none =>
        cases hu : q.untilTime with
        | some u => simp [hts]
        | none =>
          rcases hbound with hb | hb
          · exact absurd hf hb
          · exact absurd hu hb
    refine ⟨hfalse, ?_⟩
    intro parse lines idx hmem
    rcases mem_queryCollect pt parse q lines idx [] e hmem with hx | hx
    · exact List.not_mem_nil e hx
    · rw [hfalse] at hx
      cases hx
  · intro hfrom huntil
    unfold matchesQuery
    rw [hfrom, huntil]
    cases hst : q.searchTerm with
    | none =>
      cases hft : q.filter with
      | none =>
        cases hlv : (!q.levels.isEmpty && !q.levels.contains e.level) <;>
          cases hie : q.levels.isEmpty <;> cases hcontains : q.levels.contains e.level <;>
            simp_all
      | some flt =>
        cases hlv : (!q.levels.isEmpty && !q.levels.contains e.level) <;>
          cases hie : q.levels.isEmpty <;> cases hcontains : q.levels.contains e.level <;>
            cases hfe : flt e.toFlatValue <;> simp_all
    | some re =>
      cases hft : q.filter with
      | none =>
        cases hlv : (!q.levels.isEmpty && !q.levels.contains e.level) <;>
          cases hie : q.levels.isEmpty <;> cases hcontains : q.levels.contains e.level <;>
            cases hre : re e.message <;> simp_all
      | some flt =>
        cases hlv : (!q.levels.isEmpty && !q.levels.contains e.level) <;>
          cases hie : q.levels.isEmpty <;> cases hcontains : q.levels.contains e.level <;>
            cases hre : re e.message <;> cases hfe : flt e.toFlatValue <;> simp_all

/-- Witness for `matchesQuery_missing_timestamp`: a record without a
timestamp fails a query with `from` set, and with no bounds a record
without a timestamp matches an unconstrained query. -/
theorem matchesQuery_missing_timestamp_witness :
    (extractTimestamp (fun _ => none) (LogInfo.mk "info" "hello" []) = none) ∧
    ((some (5 : Int) ≠ (none : Option Int)) ∨ ((none : Option Int) ≠ none)) ∧
    (matchesQuery (fun _ => none)
        (LogQuery.mk (some 5) none none none .ascending [] [] none none)
        (LogInfo.mk "info" "hello" []) = false) :=
  ⟨rfl, Or.inl (by decide),
    ((matchesQuery_missing_timestamp (fun _ => none)
      (LogQuery.mk (some 5) none none none .ascending [] [] none none)
      (LogInfo.mk "info" "hello" [])).1 rfl (Or.inl (by decide))).1⟩

/-! ### Batching-wrapper lemmas -/

theorem deliveredRecords_append {L : Type} (xs ys : List (InnerOp L)) :
    deliveredRecords (xs ++ ys) = deliveredRecords xs ++ deliveredRecords ys := by
  induction xs with
  | nil => rfl
  | cons op rest ih =>
    cases op <;> simp [deliveredRecords, ih]

theorem opsWellFormed_append_block {L : Type} (ops : List (InnerOp L)) (b : List L)
    (hb : b.isEmpty = false) (h : opsWellFormed ops = true) :
    opsWellFormed (ops ++ [.logBatch b, .flushCall]) = true := by
  induction ops using opsWellFormed.induct with
  | case1 =>
    simp [opsWellFormed, hb]
  | case2 b' rest ih =>
    simp only [opsWellFormed, Bool.and_eq_true] at h
    simp only [List.cons_append, opsWellFormed, Bool.and_eq_true]
    exact ⟨h.1, ih h.2⟩
  | case3 x hx1 hx2 =>
    rw [opsWellFormed.eq_3 x hx1 hx2] at h
    cases h

theorem flushBatch_batch {L : Type} (s : BatchWorkerState L) : (flushBatch s).batch = [] := by
  unfold flushBatch
  split
  · rename_i h
    simpa using h
  · rfl

theorem flushBatch_delivered {L : Type} (s : BatchWorkerState L) :
    deliveredRecords (flushBatch s).innerOps = deliveredRecords s.innerOps ++ s.batch := by
  unfold flushBatch
  split
  · rename_i h
    have hb : s.batch = [] := by simpa using h
    simp [hb]
  · simp [deliveredRecords_append, deliveredRecords]

theorem flushBatch_wellFormed {L : Type} (s : BatchWorkerState L)
    (h : opsWellFormed s.innerOps = true) : opsWellFormed (flushBatch s).innerOps = true := by
  unfold flushBatch
  split
  · exact h
  · rename_i hne
    exact opsWellFormed_append_block _ _ (Bool.eq_false_iff.mpr hne) h

theorem runBatch_conservation {L : Type} (maxBatchSize : Nat) (es : List (BatchEvent L)) :
    ∀ s : BatchWorkerState L, noExit es = true →
      (deliveredRecords (runBatchThread maxBatchSize s es).innerOps ++
          (runBatchThread maxBatchSize s es).batch =
        deliveredRecords s.innerOps ++ s.batch ++ loggedRecords es) ∧
      (opsWellFormed s.innerOps = true →
        opsWellFormed (runBatchThread maxBatchSize s es).innerOps = true) := by
  induction es with
  | nil =>
    intro s _
    constructor
    · simp [runBatchThread, loggedRecords]
    · exact fun h => h
  | cons e rest ih =>
    intro s hne
    cases e with
    | shutdown => simp [noExit] at hne
    | disconnected => simp [noExit] at hne
    | log r =>
      have hne' : noExit rest = true := by simpa [noExit] using hne
      simp only [runBatchThread]
      by_cases hsz : maxBatchSize ≤ (s.batch ++ [r]).length
      · rw [if_pos hsz]
        constructor
        · rw [(ih _ hne').1, flushBatch_delivered, flushBatch_batch]
          simp [loggedRecords]
        · intro hwf
          exact (ih _ hne').2 (flushBatch_wellFormed _ hwf)
      · rw [if_neg hsz]
        constructor
        · rw [(ih _ hne').1]
          simp [loggedRecords]
        · intro hwf
          exact (ih _ hne').2 hwf
    | flush =>
      have hne' : noExit rest = true := by simpa [noExit] using hne
      simp only [runBatchThread]
      constructor
      · rw [(ih _ hne').1, flushBatch_delivered, flushBatch_batch]
        simp [loggedRecords]
      · intro hwf
        exact (ih _ hne').2 (flushBatch_wellFormed _ hwf)
    | query =>
      have hne' : noExit rest = true := by simpa [noExit] using hne
      simp only [runBatchThread]
      constructor
      · rw [(ih _ hne').1, flushBatch_delivered, flushBatch_batch]
        simp [loggedRecords]
      · intro hwf
        exact (ih _ hne').2 (flushBatch_wellFormed _ hwf)
    | timeout expired =>
      have hne' : noExit rest = true := by simpa [noExit] using hne
      simp only [runBatchThread]
      by_cases hcond : (!s.batch.isEmpty && expired) = true
      · rw [if_pos hcond]
        constructor
        · rw [(ih _ hne').1, flushBatch_delivered, flushBatch_batch]
          simp [loggedRecords]
        · intro hwf
          exact (ih _ hne').2 (flushBatch_wellFormed _ hwf)
      · rw [if_neg hcond]
        constructor
        · rw [(ih _ hne').1]
          simp [loggedRecords]
        · intro hwf
          exact (ih _ hne').2 hwf

theorem runBatch_final_flush {L : Type} (maxBatchSize : Nat) (es : List (BatchEvent L)) :
    ∀ s : BatchWorkerState L, noExit es = true →
      runBatchThread maxBatchSize s (es ++ [BatchEvent.flush]) =
        flushBatch (runBatchThread maxBatchSize s es) ∧
      runBatchThread maxBatchSize s (es ++ [BatchEvent.shutdown]) =
        flushBatch (runBatchThread maxBatchSize s es) := by
  induction es with
  | nil =>
    intro s _
    constructor <;> rfl
  | cons e rest ih =>
    intro s hne
    cases e with
    | shutdown => simp [noExit] at hne
    | disconnected => simp [noExit] at hne
    | log r =>
      have hne' : noExit rest = true := by simpa [noExit] using hne
      simp only [List.cons_append, runBatchThread]
      exact ih _ hne'
    | flush =>
      have hne' : noExit rest = true := by simpa [noExit] using hne
      simp only [List.cons_append, runBatchThread]
      exact ih _ hne'
    | query =>
      have hne' : noExit rest = true := by simpa [noExit] using hne
      simp only [List.cons_append, runBatchThread]
      exact ih _ hne'
    | timeout expired =>
      have hne' : noExit rest = true := by simpa [noExit] using hne
      simp only [List.cons_append, runBatchThread]
      exact ih _ hne'

/-- C4: modelling the worker's FIFO consumption as a sequential event
trace (see the section comment on the batching wrapper): for every event
trace with no early exit followed by a `flush` message — the point at
which `flush()` on the handle returns — every record from the prior `log`
events has been handed to the inner transport (in order) through
non-empty `log_batch` calls each followed by an inner `flush`, and the
worker's pending batch is empty; the same holds with `flush_on_drop =
true` for `Drop`, which sends `Shutdown` and joins, so no record logged
before the drop is lost. -/
theorem batching_flush_barrier_and_no_loss {L : Type} (maxBatchSize : Nat)
    (es : List (BatchEvent L)) (hes : noExit es = true) :
    (deliveredRecords
        (runBatchThread maxBatchSize (BatchWorkerState.mk [] []) (es ++ [.flush])).innerOps =
        loggedRecords es ∧
      (runBatchThread maxBatchSize (BatchWorkerState.mk [] []) (es ++ [.flush])).batch = [] ∧
      opsWellFormed
        (runBatchThread maxBatchSize (BatchWorkerState.mk [] []) (es ++ [.flush])).innerOps =
        true) ∧
    (deliveredRecords
        (runBatchThread maxBatchSize (BatchWorkerState.mk [] []) (es ++ [.shutdown])).innerOps =
        loggedRecords es ∧
      (runBatchThread maxBatchSize (BatchWorkerState.mk [] []) (es ++ [.shutdown])).batch = [] ∧
      opsWellFormed
        (runBatchThread maxBatchSize (BatchWorkerState.mk [] []) (es ++ [.shutdown])).innerOps =
        true) := by
  have hfin := runBatch_final_flush maxBatchSize es (BatchWorkerState.mk [] []) hes
  have hcons := runBatch_conservation maxBatchSize es (BatchWorkerState.mk [] []) hes
  have hdel : deliveredRecords
      (flushBatch (runBatchThread maxBatchSize (BatchWorkerState.mk [] []) es)).innerOps =
      loggedRecords es := by
    rw [flushBatch_delivered]
    have := hcons.1
    simpa [deliveredRecords] using this
  have hwf : opsWellFormed
      (flushBatch (runBatchThread maxBatchSize (BatchWorkerState.mk [] []) es)).innerOps =
      true :=
    flushBatch_wellFormed _ (hcons.2 rfl)
  constructor
  · rw [hfin.1]
    exact ⟨hdel, flushBatch_batch _, hwf⟩
  · rw [hfin.2]
    exact ⟨hdel, flushBatch_batch _, hwf⟩

/-- Witness for `batching_flush_barrier_and_no_loss`: two logged records
followed by a flush (or a shutdown) are both delivered in one non-empty
batch followed by an inner flush. -/
theorem batching_flush_barrier_and_no_loss_witness :
    noExit [BatchEvent.log 1, BatchEvent.log 2] = true ∧
    (deliveredRecords
        (runBatchThread 100 (BatchWorkerState.mk [] [])
          ([BatchEvent.log 1, BatchEvent.log 2] ++ [.flush])).innerOps =
        loggedRecords [BatchEvent.log 1, BatchEvent.log 2] ∧
      (runBatchThread 100 (BatchWorkerState.mk [] [])
          ([BatchEvent.log 1, BatchEvent.log 2] ++ [.flush])).batch = ([] : List Nat) ∧
      opsWellFormed
        (runBatchThread 100 (BatchWorkerState.mk [] [])
          ([BatchEvent.log 1, BatchEvent.log 2] ++ [.flush])).innerOps = true) ∧
    (deliveredRecords
        (runBatchThread 100 (BatchWorkerState.mk [] [])
          ([BatchEvent.log 1, BatchEvent.log 2] ++ [.shutdown])).innerOps =
        loggedRecords [BatchEvent.log 1, BatchEvent.log 2] ∧
      (runBatchThread 100 (BatchWorkerState.mk [] [])
          ([BatchEvent.log 1, BatchEvent.log 2] ++ [.shutdown])).batch = ([] : List Nat) ∧
      opsWellFormed
        (runBatchThread 100 (BatchWorkerState.mk [] [])
          ([BatchEvent.log 1, BatchEvent.log 2] ++ [.shutdown])).innerOps = true) :=
  ⟨rfl,
    (batching_flush_barrier_and_no_loss 100 [BatchEvent.log 1, BatchEvent.log 2] rfl).1,
    (batching_flush_barrier_and_no_loss 100 [BatchEvent.log 1, BatchEvent.log 2] rfl).2⟩

/-! ### Document-store compilation lemmas -/

theorem docInsert_fresh (k : String) (v : Bson) (d : List (String × Bson))
    (h : k ∉ docKeys d) : docInsert k v d = d ++ [(k, v)] := by
  induction d with
  | nil => rfl
  | cons kv rest ih =>
    obtain ⟨k', v'⟩ := kv
    simp only [docKeys, List.map_cons, List.mem_cons] at h
    push_neg at h
    simp only [docInsert, if_neg h.1, List.cons_append]
    rw [ih (by simpa [docKeys] using h.2)]

theorem insertAll_fresh (entries : List (String × Bson)) :
    ∀ d : List (String × Bson),
      (∀ k ∈ docKeys entries, k ∉ docKeys d) → (docKeys entries).Nodup →
      entries.foldl (fun acc kv => docInsert kv.1 kv.2 acc) d = d ++ entries := by
  induction entries with
  | nil =>
    intro d _ _
    simp
  | cons kv rest ih =>
    obtain ⟨k, v⟩ := kv
    intro d hfresh hnodup
    have hk : k ∉ docKeys d := hfresh k (by simp [docKeys])
    have hkr : k ∉ docKeys rest := by
      have := hnodup
      simp only [docKeys, List.map_cons, List.nodup_cons] at this
      simpa [docKeys] using this.1
    rw [List.foldl_cons]
    show rest.foldl (fun acc kv => docInsert kv.1 kv.2 acc) (docInsert k v d) = _
    rw [docInsert_fresh k v d hk]
    rw [ih (d ++ [(k, v)]) ?fresh ?nodup]
    · simp
    case fresh =>
      intro k' hk' hmem
      simp only [docKeys, List.map_append] at hmem
      rcases List.mem_append.mp hmem with hm | hm
      · exact hfresh k' (by simp [docKeys]; exact Or.inr (by simpa [docKeys] using hk')) hm
      · simp at hm
        subst hm
        exact hkr hk'
    case nodup =>
      have := hnodup
      simp only [docKeys, List.map_cons, List.nodup_cons] at this
      simpa [docKeys] using this.2

theorem fieldLogic_and_merge (conds : List FieldComparison)
    (h : (List.flatten (conds.map (fun c => docKeys c.toMongoFilter))).Nodup) :
    FieldLogic.toMongoFilter (FieldLogic.mk LogicalOperator.and conds) =
      List.flatten (conds.map (fun c => c.toMongoFilter)) := by
  suffices hgen : ∀ (cs : List FieldComparison) (d : List (String × Bson)),
      (List.flatten (cs.map (fun c => docKeys c.toMongoFilter))).Nodup →
      (∀ k ∈ List.flatten (cs.map (fun c => docKeys c.toMongoFilter)), k ∉ docKeys d) →
      cs.foldl
          (fun merged c => c.toMongoFilter.foldl (fun dd kv => docInsert kv.1 kv.2 dd) merged)
          d =
        d ++ List.flatten (cs.map (fun c => c.toMongoFilter)) by
    have hmain := hgen conds [] h (by simp [docKeys])
    simpa [FieldLogic.toMongoFilter] using hmain
  intro cs
  induction cs with
  | nil =>
    intro d _ _
    simp
  | cons c rest ih =>
    intro d hnodup hdisj
    have hsplit : (docKeys c.toMongoFilter ++
        List.flatten (rest.map (fun cc => docKeys cc.toMongoFilter))).Nodup := by
      simpa using hnodup
    have hnd1 : (docKeys c.toMongoFilter).Nodup := hsplit.of_append_left
    have hnd2 : (List.flatten (rest.map (fun cc => docKeys cc.toMongoFilter))).Nodup :=
      hsplit.of_append_right
    have hdj : List.Disjoint (docKeys c.toMongoFilter)
        (List.flatten (rest.map (fun cc => docKeys cc.toMongoFilter))) :=
      List.disjoint_of_nodup_append hsplit
    rw [List.foldl_cons]
    show rest.foldl
        (fun merged cc => cc.toMongoFilter.foldl (fun dd kv => docInsert kv.1 kv.2 dd) merged)
        (c.toMongoFilter.foldl (fun dd kv => docInsert kv.1 kv.2 dd) d) = _
    rw [insertAll_fresh c.toMongoFilter d
      (fun k hk => hdisj k (List.mem_append_left _ hk)) hnd1]
    rw [ih (d ++ c.toMongoFilter) hnd2 ?fresh]
    · simp
    case fresh =>
      intro k hk hmem
      simp only [docKeys, List.map_append] at hmem
      rcases List.mem_append.mp hmem with hm | hm
      · exact hdisj k (List.mem_append_right _ hk) hm
      · exact hdj (by simpa [docKeys] using hm) hk

/-- C6 (amended): the document-store compiler maps a field comparison to
the operator document of the table Eq→`$eq`, Ne→`$ne`, Gt→`$gt`,
Lt→`$lt`, Gte→`$gte`, Lte→`$lte`, In→`$in`, NotIn→`$nin`,
Exists→`$exists:true`, NotExists→`$exists:false`, placed under the dotted
field path; Matches/NotMatches produce `$regex` / `$not:{$regex}` only
when the value is a `Regex`, and the empty document otherwise; a
`FieldLogic` with operator And merges its conditions' comparator
documents into one document under the field (their concatenation, when
the comparator keys do not collide — the compiler assumes the caller
avoids collisions, later keys overwriting earlier ones otherwise); a
`FieldLogic` with operator Or expands to a top-level `$or` with one
`{field: comparator-document}` per condition. -/
theorem mongo_filter_compilation (path : FieldPath) (v : QueryValue) (r : String)
    (conds : List FieldComparison)
    (hnodup : (List.flatten (conds.map (fun c => docKeys c.toMongoFilter))).Nodup)
    (hvr : ∀ rr, v ≠ QueryValue.regex rr) :
    ((FieldQueryNode.mk path (.comparison (FieldComparison.mk .equals v))).toMongoFilter =
      [(fieldPathToString path, .document [("$eq", valueToBson v)])]) ∧
    ((FieldQueryNode.mk path (.comparison (FieldComparison.mk .notEquals v))).toMongoFilter =
      [(fieldPathToString path, .document [("$ne", valueToBson v)])]) ∧
    ((FieldQueryNode.mk path (.comparison (FieldComparison.mk .greaterThan v))).toMongoFilter =
      [(fieldPathToString path, .document [("$gt", valueToBson v)])]) ∧
    ((FieldQueryNode.mk path (.comparison (FieldComparison.mk .lessThan v))).toMongoFilter =
      [(fieldPathToString path, .document [("$lt", valueToBson v)])]) ∧
    ((FieldQueryNode.mk path
        (.comparison (FieldComparison.mk .greaterThanOrEqual v))).toMongoFilter =
      [(fieldPathToString path, .document [("$gte", valueToBson v)])]) ∧
    ((FieldQueryNode.mk path
        (.comparison (FieldComparison.mk .lessThanOrEqual v))).toMongoFilter =
      [(fieldPathToString path, .document [("$lte", valueToBson v)])]) ∧
    ((FieldQueryNode.mk path (.comparison (FieldComparison.mk .inOp v))).toMongoFilter =
      [(fieldPathToString path, .document [("$in", valueToBson v)])]) ∧
    ((FieldQueryNode.mk path (.comparison (FieldComparison.mk .notInOp v))).toMongoFilter =
      [(fieldPathToString path, .document [("$nin", valueToBson v)])]) ∧
    ((FieldQueryNode.mk path (.comparison (FieldComparison.mk .existsOp v))).toMongoFilter =
      [(fieldPathToString path, .document [("$exists", .boolean true)])]) ∧
    ((FieldQueryNode.mk path (.comparison (FieldComparison.mk .notExistsOp v))).toMongoFilter =
      [(fieldPathToString path, .document [("$exists", .boolean false)])]) ∧
    ((FieldComparison.mk .matchesOp (.regex r)).toMongoFilter =
        [("$regex", .string r)] ∧
      (FieldComparison.mk .matchesOp v).toMongoFilter = []) ∧
    ((FieldComparison.mk .notMatchesOp (.regex r)).toMongoFilter =
        [("$not", .document [("$regex", .string r)])] ∧
      (FieldComparison.mk .notMatchesOp v).toMongoFilter = []) ∧
    ((FieldQueryNode.mk path (.logic (FieldLogic.mk .and conds))).toMongoFilter =
      [(fieldPathToString path,
        .document (List.flatten (conds.map (fun c => c.toMongoFilter))))]) ∧
    ((FieldQueryNode.mk path (.logic (FieldLogic.mk .or conds))).toMongoFilter =
      [("$or", .array (conds.map (fun c =>
        Bson.document [(fieldPathToString path, Bson.document c.toMongoFilter)])))]) := by
  have hmatches : (FieldComparison.mk .matchesOp v).toMongoFilter = [] := by
    unfold FieldComparison.toMongoFilter
    cases v with
    | regex rr => exact absurd rfl (hvr rr)
    | _ => rfl
  have hnotMatches : (FieldComparison.mk .notMatchesOp v).toMongoFilter = [] := by
    unfold FieldComparison.toMongoFilter
    cases v with
    | regex rr => exact absurd rfl (hvr rr)
    | _ => rfl
  have hand : (FieldQueryNode.mk path (.logic (FieldLogic.mk .and conds))).toMongoFilter =
      [(fieldPathToString path,
        .document (List.flatten (conds.map (fun c => c.toMongoFilter))))] := by
    have hstep : (FieldQueryNode.mk path (.logic (FieldLogic.mk .and conds))).toMongoFilter =
        [(fieldPathToString path,
          .document (FieldLogic.toMongoFilter (FieldLogic.mk .and conds)))] := rfl
    rw [hstep, fieldLogic_and_merge conds hnodup]
  exact ⟨rfl, rfl, rfl, rfl, rfl, rfl, rfl, rfl, rfl, rfl,
    ⟨rfl, hmatches⟩, ⟨rfl, hnotMatches⟩, hand, rfl⟩

/-- Witness for `mongo_filter_compilation`: `age > 18 AND age < 65` on the
path `user.age` merges into one two-key document under `user.age`. -/
theorem mongo_filter_compilation_witness :
    (List.flatten
        ([FieldComparison.mk .greaterThan (.number 18),
          FieldComparison.mk .lessThan (.number 65)].map
          (fun c => docKeys c.toMongoFilter))).Nodup ∧
    (∀ rr, QueryValue.number 3 ≠ QueryValue.regex rr) ∧
    (FieldQueryNode.mk (FieldPath.mk [.field "user", .field "age"])
        (.logic (FieldLogic.mk .and
          [FieldComparison.mk .greaterThan (.number 18),
           FieldComparison.mk .lessThan (.number 65)]))).toMongoFilter =
      [("user.age", Bson.document
        [("$gt", Bson.double 18), ("$lt", Bson.double 65)])] := by
  refine ⟨by decide, fun rr h => QueryValue.noConfusion h, ?_⟩
  have h := (mongo_filter_compilation (FieldPath.mk [.field "user", .field "age"])
    (QueryValue.number 3) "re"
    [FieldComparison.mk .greaterThan (.number 18),
     FieldComparison.mk .lessThan (.number 65)]
    (by decide) (fun rr h => QueryValue.noConfusion h)).2.2.2.2.2.2.2.2.2.2.2.2.1
  rw [h]
  have h1 : fieldPathToString (FieldPath.mk [.field "user", .field "age"]) = "user.age" := by
    decide
  have h2 : (List.map (fun c => c.toMongoFilter)
      [FieldComparison.mk .greaterThan (.number 18),
       FieldComparison.mk .lessThan (.number 65)]).flatten =
      [("$gt", Bson.double 18), ("$lt", Bson.double 65)] := by
    simp [FieldComparison.toMongoFilter, valueToBson]
  rw [h1, h2]

/-- C6 counterexample: a `Matches` comparison whose value is not a regex
compiles to the empty document, not to the `$regex` operator document the
table prescribes, so the claim as stated (every field comparison follows
the table) is false. -/
theorem mongo_matches_non_regex_cex :
    (FieldComparison.mk .matchesOp (.string "abc")).toMongoFilter = [] ∧
    docKeys (FieldComparison.mk .matchesOp (.string "abc")).toMongoFilter ≠ ["$regex"] := by
  constructor
  · rfl
  · intro h
    cases h

end WinstonSpec
